import Mathlib

/-!
# policy-radar: the term index, the scanner and the highlight controller

A shallow embedding of `src/content_script.js` and proofs about it.

Modelling conventions.

* A JavaScript string is the list of its UTF-16 code units (`JSString`), so `length`,
  `slice` and match offsets count code units as the source does.
* A JavaScript object used as a dictionary is an association list in insertion order
  (`JSObject`); this is the enumeration order of `Object.keys` / `Object.entries` for keys
  that are not canonical array indices and not inherited from `Object.prototype`.
* `String.prototype.toLowerCase` and the case folding of an `i`-flagged, non-unicode
  regular expression are modelled on the ASCII letters and as the identity elsewhere.  This is
  exact whenever the vocabulary is ASCII (the built-in table is): the regular expression
  canonicalisation never maps a code unit `≥ 128` to one `< 128`, so only ASCII text can be
  matched by an ASCII term.
* The regular expression built by `rebuildIndex` is kept as the ordered list of its escaped
  alternatives; `\b`, the alternation order (backtracking) and the global `exec` loop with its
  `lastIndex` are modelled explicitly.
* The content tree is an ordered forest of text and element nodes.
-/

namespace PolicyRadar

/-! ## JavaScript strings -/

/-- A JavaScript string: the list of its UTF-16 code units. -/
abbrev JSString := List Nat

/-- The code units of a literal whose characters all lie in the basic multilingual plane. -/
def js (s : String) : JSString := s.toList.map Char.toNat

/-- Lower-casing of one code unit (`A`..`Z` to `a`..`z`). -/
def toLowerUnit (c : Nat) : Nat := if 65 ≤ c ∧ c ≤ 90 then c + 32 else c

/-- The method `String.prototype.toLowerCase`. -/
def toLowerCase (s : JSString) : JSString := s.map toLowerUnit

/-- The abstract operation `Canonicalize` of an ignore-case, non-unicode regular expression:
the code unit is upper-cased. -/
def canonicalize (c : Nat) : Nat := if 97 ≤ c ∧ c ≤ 122 then c - 32 else c

/-- The word characters of `\b` and `\w`: `[A-Za-z0-9_]`. -/
def isWordChar (c : Nat) : Bool :=
  (48 ≤ c && c ≤ 57) || (65 ≤ c && c ≤ 90) || c == 95 || (97 ≤ c && c ≤ 122)

/-- The characters of `\s`, which are also those `trim` removes: WhiteSpace and
LineTerminator of ECMAScript. -/
def isWhiteSpace (c : Nat) : Bool :=
  (9 ≤ c && c ≤ 13) || c == 32 || c == 160 || c == 5760 || (8192 ≤ c && c ≤ 8202) ||
    c == 8232 || c == 8233 || c == 8239 || c == 8287 || c == 12288 || c == 65279

/-- The method `String.prototype.slice(start, end)` for `0 ≤ start` and `0 ≤ end`. -/
def slice (s : JSString) (start stop : Nat) : JSString := (s.drop start).take (stop - start)

/-- The method `String.prototype.trim`. -/
def trim (s : JSString) : JSString :=
  ((s.dropWhile isWhiteSpace).reverse.dropWhile isWhiteSpace).reverse

/-- The scan of `s.replace(/\s+/g, " ")`; `inRun` tells that the code unit before was white
space, already replaced. -/
def collapseFrom : Bool → JSString → JSString
  | _, [] => []
  | inRun, c :: rest =>
    if isWhiteSpace c then
      if inRun then collapseFrom true rest else 32 :: collapseFrom true rest
    else c :: collapseFrom false rest

/-- The call `s.replace(/\s+/g, " ")`: every maximal run of white space becomes one space. -/
def collapseWhiteSpace (s : JSString) : JSString := collapseFrom false s

/-! ## JavaScript objects as insertion-ordered dictionaries -/

/-- An object used as a dictionary from strings, in insertion order. -/
abbrev JSObject (V : Type) := List (JSString × V)

/-- Property read `o[k]`; `none` is `undefined`. -/
def JSObject.get {V : Type} : JSObject V → JSString → Option V
  | [], _ => none
  | (k', v) :: rest, k => if k' = k then some v else JSObject.get rest k

/-- Property write `o[k] = v`: an existing key keeps its place, a new key goes last. -/
def JSObject.set {V : Type} : JSObject V → JSString → V → JSObject V
  | [], k, v => [(k, v)]
  | (k', v') :: rest, k, v =>
    if k' = k then (k', v) :: rest else (k', v') :: JSObject.set rest k v

/-- The list `Object.keys(o)`. -/
def JSObject.keys {V : Type} (o : JSObject V) : List JSString := o.map Prod.fst

/-! ## The vocabulary and the index (source lines 3-156) -/

/-- The built-in category table `CATEGORIES`. -/
def CATEGORIES : JSObject (List JSString) :=
  [ (js "Health",
      [ js "accelerometers", js "active minutes", js "activity tracking", js "Apple HealthKit",
        js "barometer", js "calories", js "device sensor data", js "fitness", js "food",
        js "Google Fit", js "gyroscopes", js "health", js "heart rate", js "magnetometer",
        js "motion", js "pedometer", js "sleep", js "steps", js "walk", js "water",
        js "weight" ]),
    (js "Purchases", [ js "purchases", js "shopping", js "spending" ]),
    (js "Financial",
      [ js "assets", js "bank account", js "card number", js "credit score", js "debts",
        js "income", js "payment", js "payment service", js "salary" ]),
    (js "Location",
      [ js "approximate", js "bluetooth", js "coarse", js "GPS", js "IP address",
        js "location", js "precise", js "ultra wideband" ]),
    (js "Contact Info", [ js "name", js "address", js "email", js "phone number", js "text" ]),
    (js "User Content",
      [ js "audio", js "capture", js "chat", js "customer support", js "direct message",
        js "email", js "gameplay", js "photos", js "recordings", js "text", js "user content",
        js "videos", js "voice" ]),
    (js "Search", [ js "search", js "history" ]),
    (js "Browsing",
      [ js "cookies", js "browsing history", js "third party tracking", js "trackers" ]),
    (js "Identifiers",
      [ js "account ID", js "advertising ID", js "customer number", js "device ID",
        js "handle", js "IMEI", js "MAC address", js "screen name", js "serial number",
        js "user name", js "UUID" ]),
    (js "Usage Data",
      [ js "advertising", js "analytics", js "clicked", js "engagement", js "interact",
        js "likes", js "usage data", js "user interaction", js "viewed", js "views" ]),
    (js "Sensitive Info",
      [ js "belief", js "biometric", js "childbirth", js "disability", js "ethnic",
        js "genetic", js "philosophical", js "political", js "pregnancy", js "racial",
        js "religious", js "sensitive information", js "sexual orientation", js "union" ]),
    (js "Diagnostics", [ js "crash logs", js "diagnostics", js "energy use", js "launch time" ]),
    (js "Other Data", [ js "other data", js "LiDAR", js "lidar" ]) ]

/-- The constant `DEFAULT_MAX_TEXT`. -/
def DEFAULT_MAX_TEXT : Nat := 500000

/-- The characters `escapeRegex` escapes: `. * + ? ^ $ { } ( ) | [ ] \`. -/
def isRegexSpecial (c : Nat) : Bool :=
  c == 46 || c == 42 || c == 43 || c == 63 || c == 94 || c == 36 || c == 123 || c == 125 ||
    c == 40 || c == 41 || c == 124 || c == 91 || c == 93 || c == 92

/-- The function `escapeRegex`: a backslash goes before every special character. -/
def escapeRegex : JSString → JSString
  | [] => []
  | c :: rest => if isRegexSpecial c then 92 :: c :: escapeRegex rest else c :: escapeRegex rest

/-- The compiled `termsRegex`, the pattern `\b(k1|k2|...|kn)\b` with flags `ig`, kept as the
ordered list of its escaped alternatives. -/
structure TermsRegex where
  alternatives : List JSString
deriving DecidableEq, Repr

/-- The module state: the variables `userAdded`, `TERM_TO_CATEGORY` and `termsRegex`. -/
structure Globals where
  userAdded : JSObject (List JSString)
  TERM_TO_CATEGORY : JSObject (List JSString)
  termsRegex : Option TermsRegex
deriving DecidableEq, Repr

/-- The state when the module has loaded: all three variables as declared. -/
def initial : Globals := ⟨[], [], none⟩

/-- The loop body `all[cat] = arr.slice()` over `Object.entries(CATEGORIES)`. -/
def copyBuiltIn (all : JSObject (List JSString)) (e : JSString × List JSString) :
    JSObject (List JSString) :=
  all.set e.1 e.2

/-- The inner loop body `if (t && !all[cat].includes(t)) all[cat].push(t)`. -/
def addUserTerm (cat : JSString) (all : JSObject (List JSString)) (t : JSString) :
    JSObject (List JSString) :=
  let arr := (all.get cat).getD []
  if t ≠ [] ∧ t ∉ arr then all.set cat (arr ++ [t]) else all

/-- The loop body over `Object.entries(userAdded)`. -/
def mergeUserCategory (all : JSObject (List JSString)) (e : JSString × List JSString) :
    JSObject (List JSString) :=
  let all1 := if (all.get e.1).isNone then all.set e.1 [] else all
  e.2.foldl (addUserTerm e.1) all1

/-- The inner loop body of the index construction for one term `t` of category `cat`. -/
def indexTerm (cat : JSString) (index : JSObject (List JSString)) (t : JSString) :
    JSObject (List JSString) :=
  let key := toLowerCase t
  let index1 := if (index.get key).isNone then index.set key [] else index
  let cats := (index1.get key).getD []
  if cat ∈ cats then index1 else index1.set key (cats ++ [cat])

/-- The loop body over `Object.entries(all)`. -/
def indexCategory (index : JSObject (List JSString)) (e : JSString × List JSString) :
    JSObject (List JSString) :=
  e.2.foldl (indexTerm e.1) index

/-- Insertion of `a` into a list sorted by `(a, b) => b.length - a.length`, after the
elements that compare equal (the sort is stable). -/
def insertByLength (a : JSString) : List JSString → List JSString
  | [] => [a]
  | b :: rest => if b.length < a.length then a :: b :: rest else b :: insertByLength a rest

/-- The call `.sort((a, b) => b.length - a.length)`: stable, longest first. -/
def sortByLengthDesc (keys : List JSString) : List JSString :=
  keys.foldl (fun acc a => insertByLength a acc) []

/-- The function `rebuildIndex`. -/
def rebuildIndex (g : Globals) : Globals :=
  let all := CATEGORIES.foldl copyBuiltIn []
  let all := g.userAdded.foldl mergeUserCategory all
  let index := all.foldl indexCategory []
  let keys := (sortByLengthDesc index.keys).map escapeRegex
  { userAdded := g.userAdded
    TERM_TO_CATEGORY := index
    termsRegex := if keys.length ≠ 0 then some ⟨keys⟩ else none }

/-! ## The matcher -/

/-- The literal a pattern denotes: `\c` stands for `c`. -/
def literalOf : Bool → JSString → JSString
  | _, [] => []
  | true, c :: rest => c :: literalOf false rest
  | false, c :: rest => if c = 92 then literalOf true rest else c :: literalOf false rest

/-- Ignore-case match of the literal `k` at the head of `rest`: the matched text. -/
def matchLiteral : JSString → JSString → Option JSString
  | [], _ => some []
  | _ :: _, [] => none
  | p :: k, t :: rest =>
    if canonicalize p = canonicalize t then (matchLiteral k rest).map (fun m => t :: m)
    else none

/-- Whether the position between `prev` and `next` is a word boundary (`\b`); `none` is
the start or the end of the input. -/
def wordBoundary (prev next : Option Nat) : Bool :=
  (prev.elim false isWordChar) != (next.elim false isWordChar)

/-- One alternative followed by the closing `\b`, tried at the head of `rest`. -/
def matchAlternative (prev : Option Nat) (rest : JSString) (k : JSString) : Option JSString :=
  match matchLiteral (literalOf false k) rest with
  | none => none
  | some m =>
    if wordBoundary (if m = [] then prev else m.getLast?) (rest.drop m.length).head? then some m
    else none

/-- The whole pattern tried at one position: `\b`, then the first alternative, in order,
after which the closing `\b` holds. -/
def matchAt (re : TermsRegex) (prev : Option Nat) (rest : JSString) : Option JSString :=
  if wordBoundary prev rest.head? then re.alternatives.findSome? (matchAlternative prev rest)
  else none

/-- The loop `while ((m = termsRegex.exec(text)) !== null)` started with `lastIndex = 0`:
the matches `(m.index, m[1])` in the order found.  `skip` counts the positions still covered
by the last match, `idx` is the current position, `prev` the code unit before it.  (An empty
match, which would stall the source's loop, does not arise: no alternative is empty.) -/
def execFrom (re : TermsRegex) : Nat → Nat → Option Nat → JSString → List (Nat × JSString)
  | _, _, _, [] => []
  | skip + 1, idx, _, c :: rest => execFrom re skip (idx + 1) (some c) rest
  | 0, idx, prev, c :: rest =>
    match matchAt re prev (c :: rest) with
    | some m => (idx, m) :: execFrom re (m.length - 1) (idx + 1) (some c) rest
    | none => execFrom re 0 (idx + 1) (some c) rest

/-- All matches of `termsRegex` in `text`, left to right. -/
def execAll (re : TermsRegex) (text : JSString) : List (Nat × JSString) :=
  execFrom re 0 0 none text

/-! ## The scanner (source lines 158-220) -/

/-- The ellipsis `…` (U+2026). -/
def ellipsis : JSString := [8230]

/-- The function `makeSnippet`. -/
def makeSnippet (text : JSString) (index matchLen radius : Nat) : JSString :=
  let start := max 0 (index - radius)
  let stop := min text.length (index + matchLen + radius)
  let pre := if start > 0 then ellipsis else []
  let suf := if stop < text.length then ellipsis else []
  let raw := trim (slice text start stop)
  pre ++ collapseWhiteSpace raw ++ suf

/-- The two values `scoreMatch` can return. -/
inductive Score where
  | exact
  | inexact
deriving DecidableEq, Repr

/-- The number a score stands for: `1.0` and `0.8`. -/
def Score.value : Score → ℚ
  | .exact => 1
  | .inexact => 4 / 5

/-- The function `scoreMatch`. -/
def scoreMatch (matchedText term : JSString) : Score :=
  if toLowerCase matchedText = toLowerCase term then .exact else .inexact

/-- One match record `{ match, snippet, index, score }`. -/
structure MatchRecord where
  matched : JSString
  snippet : JSString
  index : Nat
  score : Score
deriving DecidableEq, Repr

/-- One report entry `{ term, matches }`; the property `matches` is the field `records`
and the property `match` of a record is the field `matched`. -/
structure TermEntry where
  term : JSString
  records : List MatchRecord
deriving DecidableEq, Repr

/-- The report `scanText` returns: category to term entries. -/
abbrev ScanReport := JSObject (List TermEntry)

/-- The argument `options`; `none` is an absent property. -/
structure Options where
  maxTextLength : Option Nat
  categories : Option (List JSString)
deriving DecidableEq, Repr

/-- The default `options = {}`. -/
def noOptions : Options := ⟨none, none⟩

/-- The accumulator `found`: category to term to match records. -/
abbrev Found := JSObject (JSObject (List MatchRecord))

/-- The test `options.categories?.length && !cats.some((c) => options.categories.includes(c))`
that makes the loops skip a match. -/
def skippedByFilter (options : Options) (cats : List JSString) : Bool :=
  match options.categories with
  | none => false
  | some allow => allow.length ≠ 0 && !cats.any (fun c => allow.contains c)

/-- The body of `cats.forEach`: the record is pushed onto `found[c][key]`, both levels
created when missing. -/
def pushRecord (key : JSString) (r : MatchRecord) (found : Found) (c : JSString) : Found :=
  let termsMap := (found.get c).getD []
  let ms := (termsMap.get key).getD []
  found.set c (termsMap.set key (ms ++ [r]))

/-- The body of the `while` loop of `scanText` for the match `m = (m.index, m[1])`. -/
def scanStep (g : Globals) (options : Options) (sample : JSString) (found : Found)
    (m : Nat × JSString) : Found :=
  let matched := m.2
  let key := toLowerCase matched
  let cats := (g.TERM_TO_CATEGORY.get key).getD []
  if skippedByFilter options cats then found
  else
    let index := m.1
    let snippet := makeSnippet sample index matched.length 40
    let sc := scoreMatch matched key
    cats.foldl (pushRecord key ⟨matched, snippet, index, sc⟩) found

/-- The value `options.maxTextLength || DEFAULT_MAX_TEXT`. -/
def effectiveMaxTextLength (options : Options) : Nat :=
  match options.maxTextLength with
  | none => DEFAULT_MAX_TEXT
  | some n => if n = 0 then DEFAULT_MAX_TEXT else n

/-- The text `scanText` scans: `fullText`, cut to `maxTextLength` when longer. -/
def sampleOf (fullText : JSString) (options : Options) : JSString :=
  let maxTextLength := effectiveMaxTextLength options
  if fullText.length > maxTextLength then slice fullText 0 maxTextLength else fullText

/-- The conversion of `found` into the returned report. -/
def toReport (found : Found) : ScanReport :=
  found.map (fun e => (e.1, e.2.map (fun t => (⟨t.1, t.2⟩ : TermEntry))))

/-- The function `scanText`. -/
def scanText (g : Globals) (fullText : JSString) (options : Options) : ScanReport :=
  match g.termsRegex with
  | none => []
  | some re =>
    let sample := sampleOf fullText options
    toReport ((execAll re sample).foldl (scanStep g options sample) [])

/-! ## The content tree and the highlight controller (source lines 222-307) -/

/-- An ordered forest of nodes, the child list of a node: each constructor carries the first
node and then the nodes after it (`next`).  An element has its lower-cased tag name, its class
list, the data attributes `term` and `highlightId` when set, and its own child list. -/
inductive NodeList where
  | nil
  | text (nodeValue : JSString) (next : NodeList)
  | element (tagName : JSString) (classList : List JSString) (dataset : Option (JSString × Nat))
      (childNodes : NodeList) (next : NodeList)
deriving DecidableEq, Repr

/-- The property `textContent` of a parent with these children: the concatenation of all
text below it, in tree order. -/
def textContent : NodeList → JSString
  | .nil => []
  | .text v next => v ++ textContent next
  | .element _ _ _ ch next => textContent ch ++ textContent next

/-- The selector `mark.privacy-highlight`. -/
def isHighlight (tagName : JSString) (classList : List JSString) : Bool :=
  tagName = js "mark" && classList.contains (js "privacy-highlight")

/-- The method `normalize` on the parent of these children: empty text nodes go, adjacent
text nodes merge, at every depth. -/
def normalize : NodeList → NodeList
  | .nil => .nil
  | .text v next =>
    if v = [] then normalize next
    else
      match normalize next with
      | .text w rest => .text (v ++ w) rest
      | other => .text v other
  | .element t c d ch next => .element t c d (normalize ch) (normalize next)

/-- The call `parent.replaceChild(document.createTextNode(m.textContent), m)` done for every
marker below a parent; what lies inside a marker goes with it. -/
def replaceMarks : NodeList → NodeList
  | .nil => .nil
  | .text v next => .text v (replaceMarks next)
  | .element t c d ch next =>
    if isHighlight t c then .text (textContent ch) (replaceMarks next)
    else .element t c d (replaceMarks ch) (replaceMarks next)

/-- Whether one of these sibling nodes is a marker. -/
def hasMarkChild : NodeList → Bool
  | .nil => false
  | .text _ next => hasMarkChild next
  | .element t c _ _ next => isHighlight t c || hasMarkChild next

/-- The function `removeHighlights` below sibling nodes none of which is a marker: a parent
further down that has a marker child gets its markers replaced and is normalised. -/
def removeHighlightsBelow : NodeList → NodeList
  | .nil => .nil
  | .text v next => .text v (removeHighlightsBelow next)
  | .element t c d ch next =>
    .element t c d
      (if hasMarkChild ch then normalize (replaceMarks ch) else removeHighlightsBelow ch)
      (removeHighlightsBelow next)

/-- The function `removeHighlights`, on the children of `document.body`. -/
def removeHighlights (body : NodeList) : NodeList :=
  if hasMarkChild body then normalize (replaceMarks body) else removeHighlightsBelow body

/-- A node appended to the document fragment of one text leaf. -/
inductive FragmentNode where
  | text (nodeValue : JSString)
  | mark (textContent : JSString) (term : JSString) (highlightId : Nat)
deriving DecidableEq, Repr

/-- The variables of the inner loop of `highlightMatchesInDOM`. -/
structure LeafState where
  frag : List FragmentNode
  lastIdx : Nat
  counter : Nat
deriving DecidableEq, Repr

/-- The body of the inner `while` loop of `highlightMatchesInDOM` for the match
`m = (m.index, m[1])`; `m[0]` is `m[1]` and `termsRegex.lastIndex` is the end of the match. -/
def highlightStep (g : Globals) (options : Options) (text : JSString) (st : LeafState)
    (m : Nat × JSString) : LeafState :=
  let matched := m.2
  let termCats := (g.TERM_TO_CATEGORY.get (toLowerCase matched)).getD []
  if skippedByFilter options termCats then st
  else
    let before := slice text st.lastIdx m.1
    let frag := if before ≠ [] then st.frag ++ [.text before] else st.frag
    { frag := frag ++ [.mark matched (toLowerCase matched) st.counter]
      lastIdx := m.1 + matched.length
      counter := st.counter + 1 }

/-- The fragment built for one text leaf, and the counter after it. -/
def buildFragment (g : Globals) (re : TermsRegex) (options : Options) (text : JSString)
    (counter : Nat) : List FragmentNode × Nat :=
  let st := (execAll re text).foldl (highlightStep g options text) ⟨[], 0, counter⟩
  let after := slice text st.lastIdx text.length
  (if after ≠ [] then st.frag ++ [.text after] else st.frag, st.counter)

/-- The call `node.parentNode.replaceChild(frag, node)`: the nodes of the fragment take the
place of the leaf, before the siblings `next`. -/
def spliceFragment : List FragmentNode → NodeList → NodeList
  | [], next => next
  | .text v :: rest, next => .text v (spliceFragment rest next)
  | .mark t term id :: rest, next =>
    .element (js "mark") [js "privacy-highlight"] (some (term, id))
      (if t = [] then .nil else .text t .nil) (spliceFragment rest next)

/-- The filter `acceptNode` of the tree walker, for a text node with value `nodeValue` whose
parent element has the lower-cased tag name `tag`. -/
def acceptNode (tag : JSString) (nodeValue : JSString) : Bool :=
  if nodeValue = [] ∨ trim nodeValue = [] then false
  else if tag ∈ [js "script", js "style", js "textarea", js "noscript", js "code", js "pre"]
  then false
  else if tag = js "a" then false
  else true

/-- The outer loop of `highlightMatchesInDOM` over the text leaves the walker delivers, in
tree order.  `budget` is the number of leaves the walker still delivers before `nextNode()`
returns `null`: the loop replaces the walker's current node, and how a `TreeWalker` goes on
from a node that has left the tree belongs to the host, so it is left open here. -/
def highlightWalk (g : Globals) (re : TermsRegex) (options : Options) :
    JSString → Nat → Nat → NodeList → NodeList × Nat × Nat
  | _, budget, counter, .nil => (.nil, budget, counter)
  | tag, budget, counter, .text v next =>
    if acceptNode tag v ∧ budget ≠ 0 then
      let built := buildFragment g re options v counter
      let walked := highlightWalk g re options tag (budget - 1) built.2 next
      (spliceFragment built.1 walked.1, walked.2)
    else
      let walked := highlightWalk g re options tag budget counter next
      (.text v walked.1, walked.2)
  | tag, budget, counter, .element t c d ch next =>
    let inside := highlightWalk g re options t budget counter ch
    let walked := highlightWalk g re options tag inside.2.1 inside.2.2 next
    (.element t c d inside.1 walked.1, walked.2)

/-- The function `highlightMatchesInDOM`, on the children of `document.body`. -/
def highlightMatchesInDOM (g : Globals) (options : Options) (budget : Nat) (body : NodeList) :
    NodeList :=
  match g.termsRegex with
  | none => body
  | some re => (highlightWalk g re options (js "body") budget 0 (removeHighlights body)).1

/-- The page: the children of `document.body` and whether the debounce timer
`highlightTimeout` is running. -/
structure Page where
  body : NodeList
  timerRunning : Bool
deriving DecidableEq, Repr

/-- What can happen to the page: a call of `highlightMatchesInDOM(options)` from outside,
a mutation reported to the observer, the debounce timer running out. -/
inductive Event where
  | highlight (options : Options)
  | mutation
  | timerExpiry
deriving DecidableEq, Repr

/-- One event handled.  The observer callback clears and restarts the 600ms timer; the
timer callback calls `highlightMatchesInDOM()` with no argument. -/
def handle (g : Globals) (budget : Nat) (p : Page) : Event → Page
  | .highlight options => { p with body := highlightMatchesInDOM g options budget p.body }
  | .mutation => { p with timerRunning := true }
  | .timerExpiry =>
    if p.timerRunning then
      { body := highlightMatchesInDOM g noOptions budget p.body, timerRunning := false }
    else p

/-- A sequence of events handled in order. -/
def run (g : Globals) (budget : Nat) (p : Page) (events : List Event) : Page :=
  events.foldl (handle g budget) p

/-! ## Notions used to state the properties -/

/-- All match records of a report, category by category and term by term. -/
def recordsOf (report : ScanReport) : List MatchRecord :=
  report.flatMap (fun e => e.2.flatMap TermEntry.records)

/-- The matches the current matcher finds in `text`; none in the "no matcher" state. -/
def matchesOf (g : Globals) (text : JSString) : List (Nat × JSString) :=
  match g.termsRegex with
  | none => []
  | some re => execAll re text

/-- The code unit before offset `i` of `text`, if any. -/
def charBefore (text : JSString) (i : Nat) : Option Nat :=
  if i = 0 then none else text[i - 1]?

/-- The term `k` occurs in `text` at offset `i` as a whole word, ignoring case: the code
units from `i` on equal those of `k` up to case, and both ends are word boundaries. -/
def matchesWholeWordAt (k text : JSString) (i : Nat) : Prop :=
  i + k.length ≤ text.length ∧
    (slice text i (i + k.length)).map canonicalize = k.map canonicalize ∧
    wordBoundary (charBefore text i) text[i]? = true ∧
    wordBoundary (charBefore text (i + k.length)) text[i + k.length]? = true

/-- Whether a term occurs as a whole word at an offset can be computed. -/
instance decidableMatchesWholeWordAt (k text : JSString) (i : Nat) :
    Decidable (matchesWholeWordAt k text i) := by
  unfold matchesWholeWordAt
  infer_instance

/-- The record `scanText` builds for the match `m` of the scanned text `sample`. -/
def recordOf (sample : JSString) (m : Nat × JSString) : MatchRecord :=
  ⟨m.2, makeSnippet sample m.1 m.2.length 40, m.1, scoreMatch m.2 (toLowerCase m.2)⟩

/-- The categories `scanText` looks up for the match `m`. -/
def categoriesOf (g : Globals) (m : Nat × JSString) : List JSString :=
  (g.TERM_TO_CATEGORY.get (toLowerCase m.2)).getD []

/-- The records stored in `found[c][key]`, none when a level is missing. -/
def Found.records (found : Found) (c key : JSString) : List MatchRecord :=
  (((found.get c).getD []).get key).getD []

/-- The accumulator is well formed: no key twice on either level, no empty term map, no
empty record list. -/
def Found.WF (found : Found) : Prop :=
  found.keys.Nodup ∧
    ∀ c tm, (c, tm) ∈ found →
      tm.keys.Nodup ∧ tm ≠ [] ∧ ∀ k rs, (k, rs) ∈ tm → rs ≠ []

/-- What the match `m` adds to `found[c][key]`. -/
def contribution (g : Globals) (options : Options) (sample : JSString) (c key : JSString)
    (m : Nat × JSString) : List MatchRecord :=
  if skippedByFilter options (categoriesOf g m) then []
  else if toLowerCase m.2 = key then
    List.replicate ((categoriesOf g m).count c) (recordOf sample m)
  else []

/-- The accumulator `found` at the end of the loop of `scanText`. -/
def foundOf (g : Globals) (fullText : JSString) (options : Options) : Found :=
  (matchesOf g (sampleOf fullText options)).foldl
    (scanStep g options (sampleOf fullText options)) []

/-- The alternatives are ordered longest first. -/
def LongestFirst (re : TermsRegex) : Prop :=
  re.alternatives.Pairwise
    (fun a b => (literalOf false b).length ≤ (literalOf false a).length)

/-- Every term of a vocabulary is a non-empty string. -/
def TermsNonempty (all : JSObject (List JSString)) : Prop :=
  ∀ c ts, (c, ts) ∈ all → ∀ t ∈ ts, t ≠ []

/-- The index is well formed: no key twice, every key a non-empty lower-case string, every
category list non-empty and without repetition. -/
def IndexWF (index : JSObject (List JSString)) : Prop :=
  index.keys.Nodup ∧
    ∀ k cats, (k, cats) ∈ index → k ≠ [] ∧ toLowerCase k = k ∧ cats ≠ [] ∧ cats.Nodup

/-- The index `rebuildIndex` leaves in `TERM_TO_CATEGORY` for the built-in table alone,
written out; `rebuildIndex_initial` shows that it is the one computed. -/
def builtInIndex : JSObject (List JSString) :=
  [ (js "accelerometers", [js "Health"]), (js "active minutes", [js "Health"]),
    (js "activity tracking", [js "Health"]), (js "apple healthkit", [js "Health"]),
    (js "barometer", [js "Health"]), (js "calories", [js "Health"]),
    (js "device sensor data", [js "Health"]), (js "fitness", [js "Health"]),
    (js "food", [js "Health"]), (js "google fit", [js "Health"]),
    (js "gyroscopes", [js "Health"]), (js "health", [js "Health"]),
    (js "heart rate", [js "Health"]), (js "magnetometer", [js "Health"]),
    (js "motion", [js "Health"]), (js "pedometer", [js "Health"]), (js "sleep", [js "Health"]),
    (js "steps", [js "Health"]), (js "walk", [js "Health"]), (js "water", [js "Health"]),
    (js "weight", [js "Health"]), (js "purchases", [js "Purchases"]),
    (js "shopping", [js "Purchases"]), (js "spending", [js "Purchases"]),
    (js "assets", [js "Financial"]), (js "bank account", [js "Financial"]),
    (js "card number", [js "Financial"]), (js "credit score", [js "Financial"]),
    (js "debts", [js "Financial"]), (js "income", [js "Financial"]),
    (js "payment", [js "Financial"]), (js "payment service", [js "Financial"]),
    (js "salary", [js "Financial"]), (js "approximate", [js "Location"]),
    (js "bluetooth", [js "Location"]), (js "coarse", [js "Location"]),
    (js "gps", [js "Location"]), (js "ip address", [js "Location"]),
    (js "location", [js "Location"]), (js "precise", [js "Location"]),
    (js "ultra wideband", [js "Location"]), (js "name", [js "Contact Info"]),
    (js "address", [js "Contact Info"]), (js "email", [js "Contact Info", js "User Content"]),
    (js "phone number", [js "Contact Info"]),
    (js "text", [js "Contact Info", js "User Content"]), (js "audio", [js "User Content"]),
    (js "capture", [js "User Content"]), (js "chat", [js "User Content"]),
    (js "customer support", [js "User Content"]), (js "direct message", [js "User Content"]),
    (js "gameplay", [js "User Content"]), (js "photos", [js "User Content"]),
    (js "recordings", [js "User Content"]), (js "user content", [js "User Content"]),
    (js "videos", [js "User Content"]), (js "voice", [js "User Content"]),
    (js "search", [js "Search"]), (js "history", [js "Search"]), (js "cookies", [js "Browsing"]),
    (js "browsing history", [js "Browsing"]), (js "third party tracking", [js "Browsing"]),
    (js "trackers", [js "Browsing"]), (js "account id", [js "Identifiers"]),
    (js "advertising id", [js "Identifiers"]), (js "customer number", [js "Identifiers"]),
    (js "device id", [js "Identifiers"]), (js "handle", [js "Identifiers"]),
    (js "imei", [js "Identifiers"]), (js "mac address", [js "Identifiers"]),
    (js "screen name", [js "Identifiers"]), (js "serial number", [js "Identifiers"]),
    (js "user name", [js "Identifiers"]), (js "uuid", [js "Identifiers"]),
    (js "advertising", [js "Usage Data"]), (js "analytics", [js "Usage Data"]),
    (js "clicked", [js "Usage Data"]), (js "engagement", [js "Usage Data"]),
    (js "interact", [js "Usage Data"]), (js "likes", [js "Usage Data"]),
    (js "usage data", [js "Usage Data"]), (js "user interaction", [js "Usage Data"]),
    (js "viewed", [js "Usage Data"]), (js "views", [js "Usage Data"]),
    (js "belief", [js "Sensitive Info"]), (js "biometric", [js "Sensitive Info"]),
    (js "childbirth", [js "Sensitive Info"]), (js "disability", [js "Sensitive Info"]),
    (js "ethnic", [js "Sensitive Info"]), (js "genetic", [js "Sensitive Info"]),
    (js "philosophical", [js "Sensitive Info"]), (js "political", [js "Sensitive Info"]),
    (js "pregnancy", [js "Sensitive Info"]), (js "racial", [js "Sensitive Info"]),
    (js "religious", [js "Sensitive Info"]), (js "sensitive information", [js "Sensitive Info"]),
    (js "sexual orientation", [js "Sensitive Info"]), (js "union", [js "Sensitive Info"]),
    (js "crash logs", [js "Diagnostics"]), (js "diagnostics", [js "Diagnostics"]),
    (js "energy use", [js "Diagnostics"]), (js "launch time", [js "Diagnostics"]),
    (js "other data", [js "Other Data"]), (js "lidar", [js "Other Data"]) ]

/-- The alternatives of the matcher `rebuildIndex` compiles for the built-in table alone,
longest first, written out. -/
def builtInAlternatives : List JSString :=
  [ js "sensitive information", js "third party tracking", js "device sensor data",
    js "sexual orientation", js "activity tracking", js "customer support",
    js "browsing history", js "user interaction", js "apple healthkit", js "payment service",
    js "customer number", js "accelerometers", js "active minutes", js "ultra wideband",
    js "direct message", js "advertising id", js "serial number", js "philosophical",
    js "magnetometer", js "bank account", js "credit score", js "phone number",
    js "user content", js "card number", js "approximate", js "mac address", js "screen name",
    js "advertising", js "diagnostics", js "launch time", js "google fit", js "gyroscopes",
    js "heart rate", js "ip address", js "recordings", js "account id", js "engagement",
    js "usage data", js "childbirth", js "disability", js "crash logs", js "energy use",
    js "other data", js "barometer", js "pedometer", js "purchases", js "bluetooth",
    js "device id", js "user name", js "analytics", js "biometric", js "political",
    js "pregnancy", js "religious", js "calories", js "shopping", js "spending", js "location",
    js "gameplay", js "trackers", js "interact", js "fitness", js "payment", js "precise",
    js "address", js "capture", js "history", js "cookies", js "clicked", js "genetic",
    js "health", js "motion", js "weight", js "assets", js "income", js "salary", js "coarse",
    js "photos", js "videos", js "search", js "handle", js "viewed", js "belief", js "ethnic",
    js "racial", js "sleep", js "steps", js "water", js "debts", js "email", js "audio",
    js "voice", js "likes", js "views", js "union", js "lidar", js "food", js "walk", js "name",
    js "text", js "chat", js "imei", js "uuid", js "gps" ]

/-- The state after `rebuildIndex()` on a freshly loaded module, written out. -/
def builtIn : Globals := ⟨[], builtInIndex, some ⟨builtInAlternatives⟩⟩

/-- A vocabulary state with the user-added term "rate". -/
def withRate : Globals := ⟨[(js "Custom", [js "rate"])], [], none⟩

/-- A text longer than `DEFAULT_MAX_TEXT`: `n` full stops and then "payment service". -/
def longText (n : Nat) : JSString := List.replicate n 46 ++ js "payment service"

/-- The words of a string, following the spec's wording of a snippet: the maximal runs of
code units that are not white space, in order.  `cur` is the word being read. -/
def wordsFrom : JSString → JSString → List JSString
  | cur, [] => if cur = [] then [] else [cur]
  | cur, c :: rest =>
    if isWhiteSpace c then
      if cur = [] then wordsFrom [] rest else cur :: wordsFrom [] rest
    else wordsFrom (cur ++ [c]) rest

/-- The words of a string. -/
def wordsOf (s : JSString) : List JSString := wordsFrom [] s

/-- Words joined by single spaces: a text with its leading and trailing white space removed
and every run of white space collapsed to one space is the join of its words. -/
def joinWords : List JSString → JSString
  | [] => []
  | [w] => w
  | w :: v :: rest => w ++ 32 :: joinWords (v :: rest)

/-- A string without its trailing white space. -/
def dropTrailingWhiteSpace : JSString → JSString
  | [] => []
  | c :: rest =>
    if isWhiteSpace c ∧ dropTrailingWhiteSpace rest = [] then []
    else c :: dropTrailingWhiteSpace rest

/-- A text of 1000 code units with the term "gps" at offset 10. -/
def text1000 : JSString := js "aaaaaaaaa gps " ++ List.replicate 986 46

/-- The text of a document fragment: the concatenation of the text of its nodes. -/
def fragmentText : List FragmentNode → JSString
  | [] => []
  | .text v :: rest => v ++ fragmentText rest
  | .mark t _ _ :: rest => t ++ fragmentText rest

/-- The `data-term` values of the markers of a document fragment, in order. -/
def fragmentTerms : List FragmentNode → List JSString
  | [] => []
  | .text _ :: rest => fragmentTerms rest
  | .mark _ term _ :: rest => term :: fragmentTerms rest

/-- Whether a marker occurs anywhere below a parent with these children. -/
def hasMarker : NodeList → Bool
  | .nil => false
  | .text _ next => hasMarker next
  | .element t c _ ch next => isHighlight t c || hasMarker ch || hasMarker next

/-- The `data-term` values of the markers below a parent with these children, in tree
order. -/
def markerTerms : NodeList → List JSString
  | .nil => []
  | .text _ next => markerTerms next
  | .element t c d ch next =>
    (if isHighlight t c then (d.map Prod.fst).toList else []) ++ markerTerms ch ++
      markerTerms next

/-- A page whose body is one paragraph with the text "My salary and heart rate.". -/
def page0 : Page :=
  ⟨.element (js "p") [] none (.text (js "My salary and heart rate.") .nil) .nil, false⟩

/-! # Proofs -/

/-! ## Dictionaries -/

theorem JSObject.get_set {V : Type} (o : JSObject V) (k k' : JSString) (v : V) :
    (o.set k v).get k' = if k = k' then some v else o.get k' := by
  induction o with
  | nil => simp [JSObject.set, JSObject.get]
  | cons p rest ih =>
    obtain ⟨a, b⟩ := p
    by_cases h : a = k
    · subst h
      by_cases h' : a = k' <;> simp [JSObject.set, JSObject.get, h']
    · by_cases h' : a = k'
      · subst h'
        simp [JSObject.set, JSObject.get, h, Ne.symm h]
      · simp [JSObject.set, JSObject.get, h, h', ih]

theorem JSObject.mem_of_get {V : Type} (o : JSObject V) (k : JSString) (v : V)
    (h : o.get k = some v) : (k, v) ∈ o := by
  induction o with
  | nil => simp [JSObject.get] at h
  | cons p rest ih =>
    obtain ⟨a, b⟩ := p
    by_cases hk : a = k
    · subst hk
      simp [JSObject.get] at h
      simp [h]
    · simp [JSObject.get, hk] at h
      exact List.mem_cons_of_mem _ (ih h)

theorem JSObject.get_of_mem {V : Type} (o : JSObject V) (k : JSString) (v : V)
    (hnd : o.keys.Nodup) (h : (k, v) ∈ o) : o.get k = some v := by
  induction o with
  | nil => simp at h
  | cons p rest ih =>
    obtain ⟨a, b⟩ := p
    simp only [JSObject.keys, List.map_cons, List.nodup_cons] at hnd
    rcases List.mem_cons.1 h with h | h
    · cases h
      simp [JSObject.get]
    · have hne : a ≠ k := by
        rintro rfl
        exact hnd.1 (List.mem_map.2 ⟨(a, v), h, rfl⟩)
      simp only [JSObject.get, hne, if_false]
      exact ih hnd.2 h

theorem JSObject.get_isSome_iff {V : Type} (o : JSObject V) (k : JSString) :
    (o.get k).isSome ↔ k ∈ o.keys := by
  induction o with
  | nil => simp [JSObject.get, JSObject.keys]
  | cons p rest ih =>
    obtain ⟨a, b⟩ := p
    by_cases hk : a = k
    · simp [JSObject.get, JSObject.keys, hk]
    · simp only [JSObject.get, hk, if_false, JSObject.keys, List.map_cons, List.mem_cons]
      rw [ih]
      simp [JSObject.keys, Ne.symm hk]

theorem JSObject.keys_set {V : Type} (o : JSObject V) (k : JSString) (v : V) :
    (o.set k v).keys = if k ∈ o.keys then o.keys else o.keys ++ [k] := by
  induction o with
  | nil => simp [JSObject.set, JSObject.keys]
  | cons p rest ih =>
    obtain ⟨a, b⟩ := p
    by_cases hk : a = k
    · simp [JSObject.set, JSObject.keys, hk]
    · have ih' := ih
      simp only [JSObject.keys] at ih'
      simp only [JSObject.set, hk, if_false, JSObject.keys, List.map_cons, List.mem_cons,
        Ne.symm hk, false_or, ih']
      split <;> simp

theorem JSObject.nodup_keys_set {V : Type} (o : JSObject V) (k : JSString) (v : V)
    (h : o.keys.Nodup) : (o.set k v).keys.Nodup := by
  rw [JSObject.keys_set]
  split
  · exact h
  · rename_i hk
    refine List.nodup_append.2 ⟨h, List.nodup_singleton _, ?_⟩
    intro a ha hb
    rw [List.mem_singleton] at hb
    exact hk (hb ▸ ha)

theorem JSObject.mem_set {V : Type} (o : JSObject V) (k : JSString) (v : V)
    (p : JSString × V) (h : p ∈ o.set k v) : p = (k, v) ∨ p ∈ o := by
  induction o with
  | nil => simpa [JSObject.set] using h
  | cons q rest ih =>
    obtain ⟨a, b⟩ := q
    by_cases hk : a = k
    · simp only [JSObject.set, hk, if_true, List.mem_cons] at h
      rcases h with h | h
      · exact Or.inl h
      · exact Or.inr (List.mem_cons_of_mem _ h)
    · simp only [JSObject.set, hk, if_false, List.mem_cons] at h
      rcases h with h | h
      · exact Or.inr (by simp [h])
      · rcases ih h with h | h
        · exact Or.inl h
        · exact Or.inr (List.mem_cons_of_mem _ h)

theorem JSObject.set_ne_nil {V : Type} (o : JSObject V) (k : JSString) (v : V) :
    o.set k v ≠ [] := by
  cases o with
  | nil => simp [JSObject.set]
  | cons p rest =>
    obtain ⟨a, b⟩ := p
    simp only [JSObject.set]
    split <;> simp

/-! ## The accumulator of `scanText` -/

theorem Found.wf_nil : Found.WF [] := by
  refine ⟨by simp [JSObject.keys], ?_⟩
  intro c tm h
  simp at h

theorem Found.wf_pushRecord (key : JSString) (r : MatchRecord) (found : Found) (c : JSString)
    (h : found.WF) : (pushRecord key r found c).WF := by
  obtain ⟨hnd, hall⟩ := h
  have htm : ((found.get c).getD []).keys.Nodup ∧
      ∀ k rs, (k, rs) ∈ (found.get c).getD [] → rs ≠ [] := by
    cases hg : found.get c with
    | none => simp [JSObject.keys]
    | some tm =>
      have := hall c tm (JSObject.mem_of_get _ _ _ hg)
      exact ⟨this.1, this.2.2⟩
  refine ⟨JSObject.nodup_keys_set _ _ _ hnd, ?_⟩
  intro c' tm' hmem
  rcases JSObject.mem_set _ _ _ _ hmem with heq | hold
  · cases heq
    refine ⟨JSObject.nodup_keys_set _ _ _ htm.1, JSObject.set_ne_nil _ _ _, ?_⟩
    intro k rs hk
    rcases JSObject.mem_set _ _ _ _ hk with heq | hold
    · cases heq
      simp
    · exact htm.2 k rs hold
  · exact hall c' tm' hold

theorem Found.records_pushRecord (key : JSString) (r : MatchRecord) (found : Found)
    (c c' key' : JSString) :
    Found.records (pushRecord key r found c) c' key' =
      Found.records found c' key' ++ (if c = c' ∧ key = key' then [r] else []) := by
  unfold Found.records pushRecord
  simp only [JSObject.get_set]
  by_cases hc : c = c'
  · subst hc
    by_cases hk : key = key'
    · subst hk
      simp [JSObject.get_set]
    · simp [hk, JSObject.get_set]
  · simp [hc]

theorem Found.wf_foldl_pushRecord (key : JSString) (r : MatchRecord) (cats : List JSString)
    (found : Found) (h : found.WF) : (cats.foldl (pushRecord key r) found).WF := by
  induction cats generalizing found with
  | nil => exact h
  | cons c rest ih => exact ih _ (Found.wf_pushRecord key r found c h)

theorem Found.records_foldl_pushRecord (key : JSString) (r : MatchRecord)
    (cats : List JSString) (found : Found) (c' key' : JSString) :
    Found.records (cats.foldl (pushRecord key r) found) c' key' =
      Found.records found c' key' ++
        (if key = key' then List.replicate (cats.count c') r else []) := by
  induction cats generalizing found with
  | nil => simp
  | cons c rest ih =>
    rw [List.foldl_cons, ih, Found.records_pushRecord, List.count_cons]
    by_cases hk : key = key'
    · by_cases hc : c = c'
      · subst hc
        simp [hk, List.replicate_succ]
      · simp [hk, hc]
    · simp [hk]

theorem Found.wf_scanStep (g : Globals) (options : Options) (sample : JSString)
    (found : Found) (m : Nat × JSString) (h : found.WF) :
    (scanStep g options sample found m).WF := by
  unfold scanStep
  simp only
  split
  · exact h
  · exact Found.wf_foldl_pushRecord _ _ _ _ h

theorem Found.records_scanStep (g : Globals) (options : Options) (sample : JSString)
    (found : Found) (m : Nat × JSString) (c key : JSString) :
    Found.records (scanStep g options sample found m) c key =
      Found.records found c key ++ contribution g options sample c key m := by
  unfold scanStep contribution
  simp only
  by_cases hs : skippedByFilter options ((g.TERM_TO_CATEGORY.get (toLowerCase m.2)).getD [])
  · simp [hs, categoriesOf]
  · simp only [hs, categoriesOf, Bool.false_eq_true, if_false]
    rw [Found.records_foldl_pushRecord]
    rfl

theorem Found.wf_foldl_scanStep (g : Globals) (options : Options) (sample : JSString)
    (ms : List (Nat × JSString)) (found : Found) (h : found.WF) :
    (ms.foldl (scanStep g options sample) found).WF := by
  induction ms generalizing found with
  | nil => exact h
  | cons m rest ih => exact ih _ (Found.wf_scanStep g options sample found m h)

theorem Found.records_foldl_scanStep (g : Globals) (options : Options) (sample : JSString)
    (ms : List (Nat × JSString)) (found : Found) (c key : JSString) :
    Found.records (ms.foldl (scanStep g options sample) found) c key =
      Found.records found c key ++ ms.flatMap (contribution g options sample c key) := by
  induction ms generalizing found with
  | nil => simp
  | cons m rest ih =>
    rw [List.foldl_cons, ih, Found.records_scanStep, List.flatMap_cons, List.append_assoc]

/-! ## The report of `scanText` -/

theorem scanText_eq (g : Globals) (fullText : JSString) (options : Options) :
    scanText g fullText options = toReport (foundOf g fullText options) := by
  unfold scanText foundOf matchesOf
  cases g.termsRegex with
  | none => simp [toReport]
  | some re => rfl

theorem foundOf_wf (g : Globals) (fullText : JSString) (options : Options) :
    (foundOf g fullText options).WF :=
  Found.wf_foldl_scanStep _ _ _ _ _ Found.wf_nil

theorem foundOf_records (g : Globals) (fullText : JSString) (options : Options)
    (c key : JSString) :
    Found.records (foundOf g fullText options) c key =
      (matchesOf g (sampleOf fullText options)).flatMap
        (contribution g options (sampleOf fullText options) c key) := by
  unfold foundOf
  rw [Found.records_foldl_scanStep]
  simp [Found.records, JSObject.get]

theorem mem_toReport (found : Found) (c : JSString) (es : List TermEntry)
    (h : (c, es) ∈ toReport found) :
    ∃ tm, (c, tm) ∈ found ∧ es = tm.map (fun t => (⟨t.1, t.2⟩ : TermEntry)) := by
  unfold toReport at h
  obtain ⟨p, hp, heq⟩ := List.mem_map.1 h
  obtain ⟨a, tm⟩ := p
  simp only [Prod.mk.injEq] at heq
  obtain ⟨rfl, rfl⟩ := heq
  exact ⟨tm, hp, rfl⟩

theorem Found.records_of_mem (found : Found) (h : found.WF) (c key : JSString)
    (tm : JSObject (List MatchRecord)) (rs : List MatchRecord)
    (hc : (c, tm) ∈ found) (hk : (key, rs) ∈ tm) : Found.records found c key = rs := by
  unfold Found.records
  rw [JSObject.get_of_mem _ _ _ h.1 hc]
  simp only [Option.getD_some]
  rw [JSObject.get_of_mem _ _ _ (h.2 c tm hc).1 hk]
  rfl

theorem Found.mem_of_records_ne_nil (found : Found) (c key : JSString)
    (h : Found.records found c key ≠ []) :
    ∃ tm, (c, tm) ∈ found ∧ (key, Found.records found c key) ∈ tm := by
  unfold Found.records at h ⊢
  cases hc : found.get c with
  | none => simp [hc, JSObject.get] at h
  | some tm =>
    simp only [hc, Option.getD_some] at h ⊢
    cases hk : tm.get key with
    | none => simp [hk] at h
    | some rs =>
      exact ⟨tm, JSObject.mem_of_get _ _ _ hc, by
        simpa using JSObject.mem_of_get _ _ _ hk⟩

theorem mem_contribution (g : Globals) (options : Options) (sample : JSString)
    (c key : JSString) (m : Nat × JSString) (r : MatchRecord) :
    r ∈ contribution g options sample c key m ↔
      skippedByFilter options (categoriesOf g m) = false ∧ toLowerCase m.2 = key ∧
        c ∈ categoriesOf g m ∧ r = recordOf sample m := by
  unfold contribution
  by_cases hs : skippedByFilter options (categoriesOf g m) = true
  · simp [hs]
  · by_cases hk : toLowerCase m.2 = key
    · have hs' : skippedByFilter options (categoriesOf g m) = false := by
        simpa using hs
      simp only [hs', hk, if_true, List.mem_replicate, ne_eq, true_and, Bool.false_eq_true,
        if_false]
      rw [List.count_eq_zero]
      simp
    · simp [hs, hk]

/-- Every record of the report stems from a match that passed the filter, and sits under a
category of that match and under its lower-cased text. -/
theorem scanText_sound (g : Globals) (fullText : JSString) (options : Options)
    (c : JSString) (es : List TermEntry) (e : TermEntry) (r : MatchRecord)
    (hc : (c, es) ∈ scanText g fullText options) (he : e ∈ es) (hr : r ∈ e.records) :
    ∃ m ∈ matchesOf g (sampleOf fullText options),
      skippedByFilter options (categoriesOf g m) = false ∧ toLowerCase m.2 = e.term ∧
        c ∈ categoriesOf g m ∧ r = recordOf (sampleOf fullText options) m := by
  rw [scanText_eq] at hc
  obtain ⟨tm, htm, rfl⟩ := mem_toReport _ _ _ hc
  obtain ⟨t, ht, rfl⟩ := List.mem_map.1 he
  obtain ⟨key, rs⟩ := t
  have hrec := Found.records_of_mem _ (foundOf_wf g fullText options) c key tm rs htm ht
  rw [foundOf_records] at hrec
  simp only at hr
  rw [← hrec] at hr
  obtain ⟨m, hm, hmr⟩ := List.mem_flatMap.1 hr
  exact ⟨m, hm, (mem_contribution _ _ _ _ _ _ _).1 hmr⟩

/-- Every match that passes the filter is recorded under each category of its term. -/
theorem scanText_complete (g : Globals) (fullText : JSString) (options : Options)
    (m : Nat × JSString) (c : JSString)
    (hm : m ∈ matchesOf g (sampleOf fullText options))
    (hs : skippedByFilter options (categoriesOf g m) = false)
    (hc : c ∈ categoriesOf g m) :
    ∃ es e, (c, es) ∈ scanText g fullText options ∧ e ∈ es ∧ e.term = toLowerCase m.2 ∧
      recordOf (sampleOf fullText options) m ∈ e.records := by
  have hmem : recordOf (sampleOf fullText options) m ∈
      Found.records (foundOf g fullText options) c (toLowerCase m.2) := by
    rw [foundOf_records]
    exact List.mem_flatMap.2 ⟨m, hm, (mem_contribution _ _ _ _ _ _ _).2 ⟨hs, rfl, hc, rfl⟩⟩
  obtain ⟨tm, htm, hk⟩ := Found.mem_of_records_ne_nil _ c (toLowerCase m.2)
    (List.ne_nil_of_mem hmem)
  refine ⟨tm.map (fun t => (⟨t.1, t.2⟩ : TermEntry)),
    ⟨toLowerCase m.2, Found.records (foundOf g fullText options) c (toLowerCase m.2)⟩,
    ?_, ?_, rfl, hmem⟩
  · rw [scanText_eq]
    unfold toReport
    exact List.mem_map.2 ⟨(c, tm), htm, rfl⟩
  · exact List.mem_map.2 ⟨_, hk, rfl⟩

theorem mem_recordsOf (report : ScanReport) (r : MatchRecord) :
    r ∈ recordsOf report ↔ ∃ c es e, (c, es) ∈ report ∧ e ∈ es ∧ r ∈ e.records := by
  unfold recordsOf
  constructor
  · intro h
    obtain ⟨p, hp, h2⟩ := List.mem_flatMap.1 h
    obtain ⟨e, he, hr⟩ := List.mem_flatMap.1 h2
    exact ⟨p.1, p.2, e, hp, he, hr⟩
  · rintro ⟨c, es, e, hc, he, hr⟩
    exact List.mem_flatMap.2 ⟨(c, es), hc, List.mem_flatMap.2 ⟨e, he, hr⟩⟩

/-- Every record of the report is the record of a match that passed the filter. -/
theorem recordsOf_scanText (g : Globals) (fullText : JSString) (options : Options)
    (r : MatchRecord) (hr : r ∈ recordsOf (scanText g fullText options)) :
    ∃ m ∈ matchesOf g (sampleOf fullText options),
      skippedByFilter options (categoriesOf g m) = false ∧
        r = recordOf (sampleOf fullText options) m := by
  obtain ⟨c, es, e, hc, he, hre⟩ := (mem_recordsOf _ _).1 hr
  obtain ⟨m, hm, hs, _, _, hrm⟩ := scanText_sound g fullText options c es e r hc he hre
  exact ⟨m, hm, hs, hrm⟩

/-- The shape of the report: no category twice, no category without an entry, no term twice
under a category, no entry without a record. -/
theorem scanText_shape (g : Globals) (fullText : JSString) (options : Options) :
    (JSObject.keys (scanText g fullText options)).Nodup ∧
      ∀ c es, (c, es) ∈ scanText g fullText options →
        es ≠ [] ∧ (es.map TermEntry.term).Nodup ∧ ∀ e ∈ es, e.records ≠ [] := by
  rw [scanText_eq]
  have hwf := foundOf_wf g fullText options
  constructor
  · have : JSObject.keys (toReport (foundOf g fullText options)) =
        JSObject.keys (foundOf g fullText options) := by
      simp [JSObject.keys, toReport, List.map_map, Function.comp_def]
    rw [this]
    exact hwf.1
  · intro c es hc
    obtain ⟨tm, htm, rfl⟩ := mem_toReport _ _ _ hc
    obtain ⟨hnd, hne, hrs⟩ := hwf.2 c tm htm
    refine ⟨by simpa using hne, ?_, ?_⟩
    · have : (tm.map (fun t => (⟨t.1, t.2⟩ : TermEntry))).map TermEntry.term = tm.keys := by
        simp [JSObject.keys, List.map_map, Function.comp_def]
      rw [this]
      exact hnd
    · intro e he
      obtain ⟨t, ht, rfl⟩ := List.mem_map.1 he
      exact hrs t.1 t.2 ht

theorem replicate_sublist_singleton {α : Type} (n : Nat) (a : α) (h : n ≤ 1) :
    (List.replicate n a).Sublist [a] := by
  rcases Nat.le_one_iff_eq_zero_or_eq_one.1 h with h | h <;> subst h <;> simp

theorem count_le_one_of_nodup {α : Type} [BEq α] [LawfulBEq α] (l : List α) (a : α)
    (h : l.Nodup) : l.count a ≤ 1 := by
  induction l with
  | nil => simp
  | cons b rest ih =>
    rw [List.nodup_cons] at h
    rw [List.count_cons]
    by_cases hb : (b == a) = true
    · have hba : b = a := by simpa using hb
      subst hba
      have : List.count b rest = 0 := List.count_eq_zero.2 h.1
      simp [this]
    · have := ih h.2
      simp [hb, this]

/-- The records of one entry are, in order, records of matches in scan order, provided no
match has a category twice. -/
theorem scanText_sublist (g : Globals) (fullText : JSString) (options : Options)
    (hnd : ∀ m ∈ matchesOf g (sampleOf fullText options), (categoriesOf g m).Nodup)
    (c : JSString) (es : List TermEntry) (e : TermEntry)
    (hc : (c, es) ∈ scanText g fullText options) (he : e ∈ es) :
    e.records.Sublist
      ((matchesOf g (sampleOf fullText options)).map (recordOf (sampleOf fullText options))) := by
  rw [scanText_eq] at hc
  obtain ⟨tm, htm, rfl⟩ := mem_toReport _ _ _ hc
  obtain ⟨t, ht, rfl⟩ := List.mem_map.1 he
  obtain ⟨key, rs⟩ := t
  have hrec := Found.records_of_mem _ (foundOf_wf g fullText options) c key tm rs htm ht
  rw [foundOf_records] at hrec
  simp only
  rw [← hrec]
  generalize matchesOf g (sampleOf fullText options) = ms at hnd
  induction ms with
  | nil => simp
  | cons m rest ih =>
    rw [List.flatMap_cons, List.map_cons]
    have h1 : (contribution g options (sampleOf fullText options) c key m).Sublist
        [recordOf (sampleOf fullText options) m] := by
      unfold contribution
      split
      · simp
      · split
        · exact replicate_sublist_singleton _ _
            (count_le_one_of_nodup _ c (hnd m (List.mem_cons_self _ _)))
        · simp
    exact List.Sublist.append h1 (ih (fun m' hm' => hnd m' (List.mem_cons_of_mem _ hm')))

/-! ## The matcher at one position -/

theorem literalOf_escapeRegex (s : JSString) : literalOf false (escapeRegex s) = s := by
  induction s with
  | nil => rfl
  | cons c rest ih =>
    by_cases hc : isRegexSpecial c = true
    · simp [escapeRegex, hc, literalOf, ih]
    · have h92 : c ≠ 92 := by
        rintro rfl
        exact hc (by decide)
      simp [escapeRegex, hc, literalOf, ih, h92]

theorem matchLiteral_eq (k rest : JSString) :
    matchLiteral k rest =
      if k.length ≤ rest.length ∧ (rest.take k.length).map canonicalize = k.map canonicalize
      then some (rest.take k.length) else none := by
  induction k generalizing rest with
  | nil => simp [matchLiteral]
  | cons p k ih =>
    cases rest with
    | nil => simp [matchLiteral]
    | cons t rest =>
      simp only [matchLiteral, ih, List.length_cons, Nat.add_le_add_iff_right, List.take_succ_cons,
        List.map_cons, List.cons.injEq]
      by_cases hpt : canonicalize p = canonicalize t
      · by_cases hrest : k.length ≤ rest.length ∧
            (rest.take k.length).map canonicalize = k.map canonicalize
        · simp [hpt, hrest]
        · simp [hpt, hrest]
      · simp only [hpt, if_false]
        rw [if_neg]
        rintro ⟨_, h2, _⟩
        exact hpt h2.symm

theorem charBefore_add (text : JSString) (i n : Nat) (h : i + n ≤ text.length) :
    (if (text.drop i).take n = [] then charBefore text i
      else ((text.drop i).take n).getLast?) = charBefore text (i + n) := by
  rcases Nat.eq_zero_or_pos n with hn | hn
  · subst hn
    simp
  · have hne : (text.drop i).take n ≠ [] := by
      intro h0
      have hl := congrArg List.length h0
      simp only [List.length_take, List.length_drop, List.length_nil] at hl
      omega
    have hlen : ((text.drop i).take n).length = n := by
      simp only [List.length_take, List.length_drop]
      omega
    rw [if_neg hne, List.getLast?_eq_getElem?, hlen,
      List.getElem?_take_of_lt (Nat.sub_lt hn Nat.one_pos), List.getElem?_drop]
    unfold charBefore
    rw [if_neg (by omega)]
    congr 1
    omega

/-- What one alternative does at offset `i` of `text`. -/
theorem matchAlternative_eq (text : JSString) (i : Nat) (k : JSString)
    (hi : i ≤ text.length) :
    matchAlternative (charBefore text i) (text.drop i) k =
      if i + (literalOf false k).length ≤ text.length ∧
          (slice text i (i + (literalOf false k).length)).map canonicalize =
            (literalOf false k).map canonicalize ∧
          wordBoundary (charBefore text (i + (literalOf false k).length))
            text[i + (literalOf false k).length]? = true
      then some (slice text i (i + (literalOf false k).length)) else none := by
  unfold matchAlternative
  rw [matchLiteral_eq]
  have hsl : slice text i (i + (literalOf false k).length) =
      (text.drop i).take (literalOf false k).length := by
    unfold slice
    rw [Nat.add_sub_cancel_left]
  rw [hsl]
  by_cases h1 : (literalOf false k).length ≤ (text.drop i).length ∧
      ((text.drop i).take (literalOf false k).length).map canonicalize =
        (literalOf false k).map canonicalize
  · have hle : i + (literalOf false k).length ≤ text.length := by
      have := h1.1
      rw [List.length_drop] at this
      omega
    have hlen : ((text.drop i).take (literalOf false k).length).length =
        (literalOf false k).length := by
      simp only [List.length_take, List.length_drop]
      omega
    simp only [h1, and_self, if_true, hle, true_and]
    rw [charBefore_add text i _ hle, hlen, List.head?_drop, List.getElem?_drop]
  · rw [if_neg h1]
    simp only
    rw [if_neg]
    rintro ⟨h2, h3, _⟩
    apply h1
    refine ⟨?_, h3⟩
    rw [List.length_drop]
    omega

theorem matchAlternative_isSome_iff (text : JSString) (i : Nat) (k : JSString)
    (hi : i ≤ text.length)
    (hb : wordBoundary (charBefore text i) text[i]? = true) :
    (matchAlternative (charBefore text i) (text.drop i) k).isSome ↔
      matchesWholeWordAt (literalOf false k) text i := by
  rw [matchAlternative_eq text i k hi]
  unfold matchesWholeWordAt
  constructor
  · intro h
    split at h
    · rename_i hc
      exact ⟨hc.1, hc.2.1, hb, hc.2.2⟩
    · simp at h
  · rintro ⟨h1, h2, _, h4⟩
    rw [if_pos ⟨h1, h2, h4⟩]
    rfl

/-- What the whole pattern does at offset `i` of `text`: the text matched is a whole-word
occurrence of an alternative, and no longer alternative occurs there as a whole word. -/
theorem matchAt_spec (re : TermsRegex) (hsorted : LongestFirst re) (text : JSString) (i : Nat)
    (hi : i ≤ text.length) (m : JSString)
    (h : matchAt re (charBefore text i) (text.drop i) = some m) :
    ∃ k ∈ re.alternatives,
      matchesWholeWordAt (literalOf false k) text i ∧
        m = slice text i (i + (literalOf false k).length) ∧
        ∀ j ∈ re.alternatives, (literalOf false k).length < (literalOf false j).length →
          ¬ matchesWholeWordAt (literalOf false j) text i := by
  unfold matchAt at h
  rw [List.head?_drop] at h
  by_cases hb : wordBoundary (charBefore text i) text[i]? = true
  · rw [if_pos hb] at h
    obtain ⟨l₁, k, l₂, hsplit, hk, hbefore⟩ := List.findSome?_eq_some_iff.1 h
    have hkmem : k ∈ re.alternatives := by
      rw [hsplit]
      simp
    have hksome : (matchAlternative (charBefore text i) (text.drop i) k).isSome := by
      rw [hk]
      rfl
    refine ⟨k, hkmem, (matchAlternative_isSome_iff text i k hi hb).1 hksome, ?_, ?_⟩
    · rw [matchAlternative_eq text i k hi] at hk
      split at hk
      · exact (Option.some.inj hk).symm
      · cases hk
    · intro j hj hlt hw
      unfold LongestFirst at hsorted
      rw [hsplit] at hj hsorted
      rcases List.mem_append.1 hj with hj | hj
      · have := (matchAlternative_isSome_iff text i j hi hb).2 hw
        rw [hbefore j hj] at this
        cases this
      · rcases List.mem_cons.1 hj with hj | hj
        · subst hj
          exact Nat.lt_irrefl _ hlt
        · have hp := (List.pairwise_append.1 hsorted).2.1
          have := (List.pairwise_cons.1 hp).1 j hj
          omega
  · rw [if_neg hb] at h
    cases h

/-! ## The `exec` loop -/

theorem charBefore_append (pre rest : JSString) :
    charBefore (pre ++ rest) pre.length = pre.getLast? := by
  unfold charBefore
  rcases Nat.eq_zero_or_pos pre.length with h | h
  · have : pre = [] := List.length_eq_zero.1 h
    subst this
    simp
  · rw [if_neg (by omega), List.getElem?_append_left (by omega), List.getLast?_eq_getElem?]

theorem execFrom_lower (re : TermsRegex) (skip idx : Nat) (prev : Option Nat)
    (rest : JSString) : ∀ x ∈ execFrom re skip idx prev rest, idx + skip ≤ x.1 := by
  induction rest generalizing skip idx prev with
  | nil => simp [execFrom]
  | cons c rest ih =>
    cases skip with
    | succ s =>
      intro x hx
      simp only [execFrom] at hx
      have := ih s (idx + 1) (some c) x hx
      omega
    | zero =>
      intro x hx
      simp only [execFrom] at hx
      split at hx
      · rcases List.mem_cons.1 hx with hx | hx
        · subst hx
          simp
        · have := ih _ (idx + 1) (some c) x hx
          omega
      · have := ih 0 (idx + 1) (some c) x hx
        omega

/-- The matches of the loop lie one after the other: each starts at or after the end of
the one before. -/
theorem execFrom_pairwise (re : TermsRegex) (skip idx : Nat) (prev : Option Nat)
    (rest : JSString) :
    (execFrom re skip idx prev rest).Pairwise (fun a b => a.1 + a.2.length ≤ b.1) := by
  induction rest generalizing skip idx prev with
  | nil => simp [execFrom]
  | cons c rest ih =>
    cases skip with
    | succ s =>
      simp only [execFrom]
      exact ih s (idx + 1) (some c)
    | zero =>
      simp only [execFrom]
      split
      · rename_i m hm
        refine List.pairwise_cons.2 ⟨?_, ih _ _ _⟩
        intro b hb
        have := execFrom_lower re (m.length - 1) (idx + 1) (some c) rest b hb
        simp only
        omega
      · exact ih 0 (idx + 1) (some c)

/-- Every match of the loop is a match of the pattern at its own offset. -/
theorem execFrom_spec (re : TermsRegex) (pre rest : JSString) (skip : Nat)
    (x : Nat × JSString) (hx : x ∈ execFrom re skip pre.length pre.getLast? rest) :
    x.1 < (pre ++ rest).length ∧
      matchAt re (charBefore (pre ++ rest) x.1) ((pre ++ rest).drop x.1) = some x.2 := by
  induction rest generalizing pre skip with
  | nil => simp [execFrom] at hx
  | cons c rest ih =>
    have hpre : (pre ++ [c]).length = pre.length + 1 := by simp
    have hlast : (pre ++ [c]).getLast? = some c := List.getLast?_concat _
    have happ : pre ++ [c] ++ rest = pre ++ c :: rest := by simp
    cases skip with
    | succ s =>
      simp only [execFrom] at hx
      rw [← hpre, ← hlast] at hx
      have := ih (pre ++ [c]) s hx
      rwa [happ] at this
    | zero =>
      simp only [execFrom] at hx
      split at hx
      · rename_i m hm
        rcases List.mem_cons.1 hx with hx | hx
        · subst hx
          refine ⟨by simp, ?_⟩
          simp only
          rw [charBefore_append, List.drop_left]
          exact hm
        · rw [← hpre, ← hlast] at hx
          have := ih (pre ++ [c]) _ hx
          rwa [happ] at this
      · rw [← hpre, ← hlast] at hx
        have := ih (pre ++ [c]) 0 hx
        rwa [happ] at this

theorem execAll_pairwise (re : TermsRegex) (text : JSString) :
    (execAll re text).Pairwise (fun a b => a.1 + a.2.length ≤ b.1) :=
  execFrom_pairwise re 0 0 none text

theorem execAll_spec (re : TermsRegex) (text : JSString) (x : Nat × JSString)
    (hx : x ∈ execAll re text) :
    x.1 < text.length ∧ matchAt re (charBefore text x.1) (text.drop x.1) = some x.2 := by
  have := execFrom_spec re [] text 0 x hx
  simpa using this

theorem matchesOf_pairwise (g : Globals) (text : JSString) :
    (matchesOf g text).Pairwise (fun a b => a.1 + a.2.length ≤ b.1) := by
  unfold matchesOf
  cases g.termsRegex with
  | none => simp
  | some re => exact execAll_pairwise re text

/-! ## The index built by `rebuildIndex` -/

theorem JSObject.set_set {V : Type} (o : JSObject V) (k : JSString) (v w : V) :
    (o.set k v).set k w = o.set k w := by
  induction o with
  | nil => simp [JSObject.set]
  | cons p rest ih =>
    obtain ⟨a, b⟩ := p
    by_cases hk : a = k
    · simp [JSObject.set, hk]
    · simp [JSObject.set, hk, ih]

theorem toLowerUnit_idem (c : Nat) : toLowerUnit (toLowerUnit c) = toLowerUnit c := by
  unfold toLowerUnit
  split_ifs <;> omega

theorem toLowerCase_idem (s : JSString) : toLowerCase (toLowerCase s) = toLowerCase s := by
  unfold toLowerCase
  rw [List.map_map]
  exact List.map_congr_left (fun c _ => toLowerUnit_idem c)

theorem toLowerUnit_of_canonicalize (a b : Nat) (h : canonicalize a = canonicalize b) :
    toLowerUnit a = toLowerUnit b := by
  unfold canonicalize at h
  unfold toLowerUnit
  split_ifs at h ⊢ <;> omega

theorem toLowerCase_of_canonicalize (a b : JSString)
    (h : a.map canonicalize = b.map canonicalize) : toLowerCase a = toLowerCase b := by
  induction a generalizing b with
  | nil =>
    cases b with
    | nil => rfl
    | cons y b => simp at h
  | cons x a ih =>
    cases b with
    | nil => simp at h
    | cons y b =>
      simp only [List.map_cons, List.cons.injEq] at h
      simp only [toLowerCase, List.map_cons, List.cons.injEq]
      exact ⟨toLowerUnit_of_canonicalize x y h.1, ih b h.2⟩

theorem termsNonempty_builtIn : TermsNonempty (CATEGORIES.foldl copyBuiltIn []) := by
  have h : ∀ p ∈ CATEGORIES.foldl copyBuiltIn [], ∀ t ∈ p.2, t ≠ [] := by decide!
  intro c ts hmem
  exact h (c, ts) hmem

theorem termsNonempty_addUserTerm (cat : JSString) (all : JSObject (List JSString))
    (t : JSString) (h : TermsNonempty all) : TermsNonempty (addUserTerm cat all t) := by
  unfold addUserTerm
  simp only
  split
  · rename_i hc
    intro c ts hmem u hu
    rcases JSObject.mem_set _ _ _ _ hmem with heq | hold
    · cases heq
      rcases List.mem_append.1 hu with hu | hu
      · cases hg : all.get cat with
        | none => simp [hg] at hu
        | some arr =>
          rw [hg] at hu
          exact h cat arr (JSObject.mem_of_get _ _ _ hg) u hu
      · rw [List.mem_singleton] at hu
        subst hu
        exact hc.1
    · exact h c ts hold u hu
  · exact h

theorem termsNonempty_mergeUserCategory (all : JSObject (List JSString))
    (e : JSString × List JSString) (h : TermsNonempty all) :
    TermsNonempty (mergeUserCategory all e) := by
  unfold mergeUserCategory
  simp only
  have h1 : TermsNonempty (if (all.get e.1).isNone then all.set e.1 [] else all) := by
    split
    · intro c ts hmem u hu
      rcases JSObject.mem_set _ _ _ _ hmem with heq | hold
      · cases heq
        simp at hu
      · exact h c ts hold u hu
    · exact h
  generalize (if (all.get e.1).isNone then all.set e.1 [] else all) = all1 at h1
  obtain ⟨c, ts⟩ := e
  simp only
  induction ts generalizing all1 with
  | nil => exact h1
  | cons t rest ih => exact ih _ (termsNonempty_addUserTerm c all1 t h1)

theorem termsNonempty_merged (userAdded : JSObject (List JSString)) :
    TermsNonempty (userAdded.foldl mergeUserCategory (CATEGORIES.foldl copyBuiltIn [])) := by
  have h := termsNonempty_builtIn
  generalize CATEGORIES.foldl copyBuiltIn [] = all at h
  induction userAdded generalizing all with
  | nil => exact h
  | cons e rest ih => exact ih _ (termsNonempty_mergeUserCategory all e h)

theorem indexTerm_eq (cat : JSString) (index : JSObject (List JSString)) (t : JSString) :
    indexTerm cat index t =
      if cat ∈ (index.get (toLowerCase t)).getD [] then index
      else index.set (toLowerCase t) ((index.get (toLowerCase t)).getD [] ++ [cat]) := by
  unfold indexTerm
  cases hg : index.get (toLowerCase t) with
  | none => simp [hg, JSObject.get_set, JSObject.set_set]
  | some old => simp [hg]

theorem indexWF_indexTerm (cat : JSString) (index : JSObject (List JSString)) (t : JSString)
    (ht : t ≠ []) (h : IndexWF index) : IndexWF (indexTerm cat index t) := by
  rw [indexTerm_eq]
  split
  · exact h
  · rename_i hcat
    refine ⟨JSObject.nodup_keys_set _ _ _ h.1, ?_⟩
    intro k cats hmem
    rcases JSObject.mem_set _ _ _ _ hmem with heq | hold
    · cases heq
      refine ⟨?_, toLowerCase_idem t, by simp, ?_⟩
      · intro h0
        apply ht
        unfold toLowerCase at h0
        exact List.map_eq_nil_iff.1 h0
      · refine List.nodup_append.2 ⟨?_, List.nodup_singleton _, ?_⟩
        · cases hg : index.get (toLowerCase t) with
          | none => simp
          | some old => exact (h.2 _ old (JSObject.mem_of_get _ _ _ hg)).2.2.2
        · intro a ha hb
          rw [List.mem_singleton] at hb
          subst hb
          exact hcat ha
    · exact h.2 k cats hold

theorem indexWF_indexCategory (index : JSObject (List JSString))
    (e : JSString × List JSString) (hts : ∀ t ∈ e.2, t ≠ []) (h : IndexWF index) :
    IndexWF (indexCategory index e) := by
  obtain ⟨c, ts⟩ := e
  unfold indexCategory
  simp only at hts ⊢
  induction ts generalizing index with
  | nil => exact h
  | cons t rest ih =>
    exact ih _ (indexWF_indexTerm c index t (hts t (List.mem_cons_self _ _)) h)
      (fun u hu => hts u (List.mem_cons_of_mem _ hu))

theorem indexWF_foldl (all : JSObject (List JSString)) (hall : TermsNonempty all)
    (index : JSObject (List JSString)) (h : IndexWF index) :
    IndexWF (all.foldl indexCategory index) := by
  induction all generalizing index with
  | nil => exact h
  | cons e rest ih =>
    refine ih (fun c ts hmem => hall c ts (List.mem_cons_of_mem _ hmem)) _
      (indexWF_indexCategory index e ?_ h)
    exact hall e.1 e.2 (List.mem_cons_self _ _)

/-- The index `rebuildIndex` leaves in `TERM_TO_CATEGORY` is well formed. -/
theorem indexWF_rebuildIndex (g : Globals) : IndexWF (rebuildIndex g).TERM_TO_CATEGORY := by
  unfold rebuildIndex
  simp only
  refine indexWF_foldl _ (termsNonempty_merged g.userAdded) [] ⟨by simp [JSObject.keys], ?_⟩
  intro k cats hmem
  simp at hmem

theorem mem_insertByLength (a x : JSString) (l : List JSString) :
    x ∈ insertByLength a l ↔ x = a ∨ x ∈ l := by
  induction l with
  | nil => simp [insertByLength]
  | cons b rest ih =>
    simp only [insertByLength]
    split
    · simp
    · simp only [List.mem_cons, ih]
      tauto

theorem pairwise_insertByLength (a : JSString) (l : List JSString)
    (h : l.Pairwise (fun x y => y.length ≤ x.length)) :
    (insertByLength a l).Pairwise (fun x y => y.length ≤ x.length) := by
  induction l with
  | nil => simp [insertByLength]
  | cons b rest ih =>
    simp only [insertByLength]
    rw [List.pairwise_cons] at h
    split
    · rename_i hlt
      refine List.pairwise_cons.2 ⟨?_, List.pairwise_cons.2 h⟩
      intro y hy
      rcases List.mem_cons.1 hy with hy | hy
      · subst hy
        omega
      · have := h.1 y hy
        omega
    · rename_i hge
      refine List.pairwise_cons.2 ⟨?_, ih h.2⟩
      intro y hy
      rcases (mem_insertByLength a y rest).1 hy with hy | hy
      · subst hy
        omega
      · exact h.1 y hy

theorem sortByLengthDesc_spec (keys : List JSString) :
    (sortByLengthDesc keys).Pairwise (fun x y => y.length ≤ x.length) ∧
      ∀ x, x ∈ sortByLengthDesc keys ↔ x ∈ keys := by
  unfold sortByLengthDesc
  have key : ∀ (l acc : List JSString), acc.Pairwise (fun x y => y.length ≤ x.length) →
      (l.foldl (fun acc a => insertByLength a acc) acc).Pairwise
          (fun x y => y.length ≤ x.length) ∧
        ∀ x, x ∈ l.foldl (fun acc a => insertByLength a acc) acc ↔ x ∈ acc ∨ x ∈ l := by
    intro l
    induction l with
    | nil => intro acc h; simp [h]
    | cons a rest ih =>
      intro acc h
      obtain ⟨h1, h2⟩ := ih (insertByLength a acc) (pairwise_insertByLength a acc h)
      refine ⟨h1, ?_⟩
      intro x
      rw [List.foldl_cons, h2, mem_insertByLength, List.mem_cons]
      tauto
  obtain ⟨h1, h2⟩ := key keys [] List.Pairwise.nil
  exact ⟨h1, fun x => by simp [h2]⟩

/-- The matcher `rebuildIndex` compiles: its alternatives are the escaped keys of the index,
longest first. -/
theorem termsRegex_rebuildIndex (g : Globals) (re : TermsRegex)
    (h : (rebuildIndex g).termsRegex = some re) :
    LongestFirst re ∧
      ∀ a, a ∈ re.alternatives ↔
        ∃ k ∈ (rebuildIndex g).TERM_TO_CATEGORY.keys, a = escapeRegex k := by
  unfold rebuildIndex at h ⊢
  simp only at h ⊢
  split at h
  · cases h
    obtain ⟨h1, h2⟩ := sortByLengthDesc_spec
      (JSObject.keys (List.foldl indexCategory []
        (List.foldl mergeUserCategory (List.foldl copyBuiltIn [] CATEGORIES) g.userAdded)))
    constructor
    · unfold LongestFirst
      simp only
      rw [List.pairwise_map]
      simpa [literalOf_escapeRegex] using h1
    · intro a
      simp only [List.mem_map, h2]
      constructor
      · rintro ⟨k, hk, rfl⟩
        exact ⟨k, hk, rfl⟩
      · rintro ⟨k, hk, rfl⟩
        exact ⟨k, hk, rfl⟩
  · cases h

/-- On a freshly loaded module `rebuildIndex` gives the index and matcher written out in
`builtIn`. -/
theorem rebuildIndex_initial : rebuildIndex initial = builtIn := by
  decide!

/-- With "rate" added, both "rate" and "heart rate" are indexed, and
"I tracked my heart rate today" has the one match "heart rate" at offset 13. -/
theorem rebuildIndex_withRate :
    (rebuildIndex withRate).TERM_TO_CATEGORY.get (js "rate") = some [js "Custom"] ∧
    (rebuildIndex withRate).TERM_TO_CATEGORY.get (js "heart rate") = some [js "Health"] ∧
    scanText (rebuildIndex withRate) (js "I tracked my heart rate today") noOptions =
      [(js "Health", [⟨js "heart rate",
        [⟨js "heart rate", js "I tracked my heart rate today", 13, .exact⟩]⟩])] := by
  decide!

/-! ## The matches found after `rebuildIndex` -/

theorem length_slice (text : JSString) (i n : Nat) (h : i + n ≤ text.length) :
    (slice text i (i + n)).length = n := by
  unfold slice
  simp only [List.length_take, List.length_drop]
  omega

/-- Every match found after `rebuildIndex` is a whole-word occurrence of a key of the index,
and no longer key occurs as a whole word at the same offset. -/
theorem rebuildIndex_match (g : Globals) (text : JSString) (x : Nat × JSString)
    (hx : x ∈ matchesOf (rebuildIndex g) text) :
    ∃ k cats, (k, cats) ∈ (rebuildIndex g).TERM_TO_CATEGORY ∧
      matchesWholeWordAt k text x.1 ∧ x.2 = slice text x.1 (x.1 + k.length) ∧
      x.1 < text.length ∧
      ∀ j ∈ (rebuildIndex g).TERM_TO_CATEGORY.keys, k.length < j.length →
        ¬ matchesWholeWordAt j text x.1 := by
  unfold matchesOf at hx
  cases hre : (rebuildIndex g).termsRegex with
  | none => simp [hre] at hx
  | some re =>
    rw [hre] at hx
    simp only at hx
    obtain ⟨hsorted, halts⟩ := termsRegex_rebuildIndex g re hre
    obtain ⟨hlt, hmatch⟩ := execAll_spec re text x hx
    obtain ⟨a, ha, hw, hm, hlong⟩ :=
      matchAt_spec re hsorted text x.1 (Nat.le_of_lt hlt) x.2 hmatch
    obtain ⟨k, hk, rfl⟩ := (halts a).1 ha
    rw [literalOf_escapeRegex] at hw hm hlong
    obtain ⟨p, hp, hpk⟩ := List.mem_map.1 hk
    obtain ⟨k', cats⟩ := p
    simp only at hpk
    subst hpk
    refine ⟨k', cats, hp, hw, hm, hlt, ?_⟩
    intro j hj hlen
    have := hlong (escapeRegex j) ((halts _).2 ⟨j, hj, rfl⟩)
    rw [literalOf_escapeRegex] at this
    exact this hlen

/-- After `rebuildIndex`, the lower-cased text of a match is a key of the index, its category
list is not empty and has no category twice, and the match is not empty. -/
theorem rebuildIndex_match_entry (g : Globals) (text : JSString) (x : Nat × JSString)
    (hx : x ∈ matchesOf (rebuildIndex g) text) :
    ∃ cats, (rebuildIndex g).TERM_TO_CATEGORY.get (toLowerCase x.2) = some cats ∧
      cats ≠ [] ∧ cats.Nodup ∧ x.2 ≠ [] ∧ x.1 + x.2.length ≤ text.length := by
  obtain ⟨k, cats, hmem, hw, hm, _, _⟩ := rebuildIndex_match g text x hx
  obtain ⟨hnd, hall⟩ := indexWF_rebuildIndex g
  obtain ⟨hk, hlow, hne, hcnd⟩ := hall k cats hmem
  have hlen : x.2.length = k.length := by
    rw [hm]
    exact length_slice text x.1 k.length hw.1
  have hlower : toLowerCase x.2 = k := by
    rw [← hlow]
    apply toLowerCase_of_canonicalize
    rw [hm]
    exact hw.2.1
  refine ⟨cats, ?_, hne, hcnd, ?_, ?_⟩
  · rw [hlower]
    exact JSObject.get_of_mem _ _ _ hnd hmem
  · intro h0
    rw [h0] at hlen
    exact hk (List.length_eq_zero.1 hlen.symm)
  · rw [hlen]
    exact hw.1

theorem categoriesOf_rebuildIndex (g : Globals) (text : JSString) (x : Nat × JSString)
    (hx : x ∈ matchesOf (rebuildIndex g) text) :
    categoriesOf (rebuildIndex g) x ≠ [] ∧ (categoriesOf (rebuildIndex g) x).Nodup := by
  obtain ⟨cats, hget, hne, hnd, _, _⟩ := rebuildIndex_match_entry g text x hx
  unfold categoriesOf
  rw [hget]
  exact ⟨hne, hnd⟩

/-! ## Longest match first (C1) -/

theorem execFrom_replicate (re : TermsRegex) (n idx : Nat) (prev : Option Nat)
    (rest : JSString) (hprev : prev.elim false isWordChar = false) :
    execFrom re 0 idx prev (List.replicate n 46 ++ rest) =
      execFrom re 0 (idx + n) (if n = 0 then prev else some 46) rest := by
  induction n generalizing idx prev with
  | zero => simp
  | succ n ih =>
    have hnone : matchAt re prev (46 :: (List.replicate n 46 ++ rest)) = none := by
      unfold matchAt wordBoundary
      rw [hprev]
      rfl
    rw [List.replicate_succ, List.cons_append]
    simp only [execFrom, hnone]
    rw [ih (idx + 1) (some 46) rfl]
    have : idx + 1 + n = idx + (n + 1) := by omega
    rw [this]
    by_cases hn : n = 0 <;> simp [hn]

theorem matchesOf_replicate (g : Globals) (n : Nat) (rest : JSString) (hn : n ≠ 0) :
    matchesOf g (List.replicate n 46 ++ rest) =
      match g.termsRegex with
      | none => []
      | some re => execFrom re 0 n (some 46) rest := by
  unfold matchesOf execAll
  cases g.termsRegex with
  | none => rfl
  | some re =>
    simp only
    rw [execFrom_replicate re n 0 none rest rfl]
    simp [hn]

theorem sampleOf_longText (n : Nat) (hn : n + 7 = 500000) :
    sampleOf (longText n) noOptions = List.replicate n 46 ++ js "payment" := by
  have hlen : (longText n).length = n + 15 := by
    unfold longText
    rw [List.length_append, List.length_replicate]
    rfl
  unfold sampleOf
  simp only [effectiveMaxTextLength, noOptions, DEFAULT_MAX_TEXT, hlen]
  rw [if_pos (by omega)]
  unfold slice longText
  rw [List.drop_zero, List.take_append_eq_append_take, List.length_replicate,
    List.take_replicate]
  have h1 : min (500000 - 0) n = n := by omega
  have h2 : 500000 - 0 - n = 7 := by omega
  rw [h1, h2]
  rfl

theorem longest_match_cut (n : Nat) (hn : n + 7 = 500000) :
    ∃ r ∈ recordsOf (scanText (rebuildIndex initial) (longText n) noOptions),
      ∃ k ∈ (rebuildIndex initial).TERM_TO_CATEGORY.keys,
        r.matched.length < k.length ∧ matchesWholeWordAt k (longText n) r.index := by
  have hn0 : n ≠ 0 := by omega
  have hmem : (n, js "payment") ∈
      matchesOf (rebuildIndex initial) (sampleOf (longText n) noOptions) := by
    rw [sampleOf_longText n hn, matchesOf_replicate _ _ _ hn0]
    have hre : ∀ re, (rebuildIndex initial).termsRegex = some re →
        ∀ i, execFrom re 0 i (some 46) (js "payment") = [(i, js "payment")] := by
      intro re hre i
      have h : (matchAt re (some 46) (js "payment") = some (js "payment")) := by
        have : ∀ re ∈ (rebuildIndex initial).termsRegex,
            matchAt re (some 46) (js "payment") = some (js "payment") := by
          rw [rebuildIndex_initial]
          decide!
        exact this re hre
      have hjs : js "payment" = 112 :: (js "ayment") := by decide
      rw [hjs] at h ⊢
      simp only [execFrom, h]
    cases hopt : (rebuildIndex initial).termsRegex with
    | none =>
      have : (rebuildIndex initial).termsRegex ≠ none := by
        rw [rebuildIndex_initial]
        decide
      exact absurd hopt this
    | some re =>
      simp only
      rw [hre re hopt n]
      exact List.mem_singleton.2 rfl
  have hcat : categoriesOf (rebuildIndex initial) (n, js "payment") = [js "Financial"] := by
    unfold categoriesOf
    simp only
    rw [rebuildIndex_initial]
    decide!
  obtain ⟨es, e, hes, he, _, hr⟩ := scanText_complete (rebuildIndex initial) (longText n)
    noOptions (n, js "payment") (js "Financial") hmem rfl (by rw [hcat]; simp)
  have hshort : (js "payment").length < (js "payment service").length := by decide
  refine ⟨_, (mem_recordsOf _ _).2 ⟨_, es, e, hes, he, hr⟩, js "payment service",
    by rw [rebuildIndex_initial]; decide!, hshort, ?_⟩
  have hlen : (longText n).length = n + 15 := by
    unfold longText
    rw [List.length_append, List.length_replicate]
    rfl
  have hat : ∀ j, (longText n)[n + j]? = (js "payment service")[j]? := by
    intro j
    unfold longText
    rw [List.getElem?_append_right (by rw [List.length_replicate]; omega),
      List.length_replicate, Nat.add_sub_cancel_left]
  have hk : (js "payment service").length = 15 := by decide
  unfold matchesWholeWordAt recordOf
  simp only [hk, hlen]
  refine ⟨le_refl _, ?_, ?_, ?_⟩
  · unfold slice longText
    rw [Nat.add_sub_cancel_left]
    have : List.drop n (List.replicate n 46 ++ js "payment service") =
        js "payment service" := by
      have := List.drop_left (List.replicate n 46) (js "payment service")
      rwa [List.length_replicate] at this
    rw [this]
    decide
  · unfold charBefore
    rw [if_neg hn0]
    have h1 : (longText n)[n - 1]? = some 46 := by
      unfold longText
      rw [List.getElem?_append_left (by rw [List.length_replicate]; omega),
        List.getElem?_replicate]
      simp
      omega
    have h2 := hat 0
    rw [Nat.add_zero] at h2
    rw [h1, h2]
    decide
  · unfold charBefore
    rw [if_neg (by omega)]
    have h1 : n + 15 - 1 = n + 14 := by omega
    rw [h1, hat 14, hat 15]
    decide

/-- C1, as the code has it.  After `rebuildIndex`, for every text and options: the matches
`scanText` reports do not overlap (two records are the same match or one ends before the
other starts); for every reported match at offset `i`, no strictly longer key of the index
occurs as a whole word, ignoring case, at offset `i` of the scanned text, which is the text
itself unless it is longer than `maxTextLength`; and with "rate" added to the vocabulary,
scanning "I tracked my heart rate today" reports exactly one match, "heart rate" at offset
13, and none for "rate". -/
theorem longest_match_first (g : Globals) (text : JSString) (options : Options) :
    (∀ r₁ ∈ recordsOf (scanText (rebuildIndex g) text options),
      ∀ r₂ ∈ recordsOf (scanText (rebuildIndex g) text options),
        r₁ = r₂ ∨ r₁.index + r₁.matched.length ≤ r₂.index ∨
          r₂.index + r₂.matched.length ≤ r₁.index) ∧
    (∀ r ∈ recordsOf (scanText (rebuildIndex g) text options),
      ∀ k ∈ (rebuildIndex g).TERM_TO_CATEGORY.keys, r.matched.length < k.length →
        ¬ matchesWholeWordAt k (sampleOf text options) r.index) ∧
    (text.length ≤ effectiveMaxTextLength options → sampleOf text options = text) ∧
    (rebuildIndex withRate).TERM_TO_CATEGORY.get (js "rate") = some [js "Custom"] ∧
    (rebuildIndex withRate).TERM_TO_CATEGORY.get (js "heart rate") = some [js "Health"] ∧
    scanText (rebuildIndex withRate) (js "I tracked my heart rate today") noOptions =
      [(js "Health", [⟨js "heart rate",
        [⟨js "heart rate", js "I tracked my heart rate today", 13, .exact⟩]⟩])] := by
  refine ⟨?_, ?_, ?_, rebuildIndex_withRate⟩
  · intro r₁ h₁ r₂ h₂
    obtain ⟨m₁, hm₁, _, rfl⟩ := recordsOf_scanText _ _ _ _ h₁
    obtain ⟨m₂, hm₂, _, rfl⟩ := recordsOf_scanText _ _ _ _ h₂
    have hp := matchesOf_pairwise (rebuildIndex g) (sampleOf text options)
    have hp' : (matchesOf (rebuildIndex g) (sampleOf text options)).Pairwise
        (fun a b => a = b ∨ a.1 + a.2.length ≤ b.1 ∨ b.1 + b.2.length ≤ a.1) :=
      hp.imp (fun h => Or.inr (Or.inl h))
    have hsymm : Symmetric
        (fun a b : Nat × JSString => a = b ∨ a.1 + a.2.length ≤ b.1 ∨ b.1 + b.2.length ≤ a.1) := by
      intro a b h
      rcases h with h | h | h
      · exact Or.inl h.symm
      · exact Or.inr (Or.inr h)
      · exact Or.inr (Or.inl h)
    rcases List.Pairwise.forall_of_forall hsymm (fun x _ => Or.inl rfl) hp' hm₁ hm₂ with h | h | h
    · exact Or.inl (by rw [h])
    · exact Or.inr (Or.inl h)
    · exact Or.inr (Or.inr h)
  · intro r hr k hk hlt
    obtain ⟨m, hm, _, rfl⟩ := recordsOf_scanText _ _ _ _ hr
    obtain ⟨k₀, cats, _, hw, hslice, _, hlong⟩ :=
      rebuildIndex_match g (sampleOf text options) m hm
    apply hlong k hk
    have hlen : m.2.length = k₀.length := by
      rw [hslice]
      exact length_slice _ _ _ hw.1
    simp only [recordOf] at hlt
    omega
  · intro hle
    unfold sampleOf
    simp only
    rw [if_neg (by omega)]

/-- C1, the claim as written fails past the cut: in `longText 499993`, 500008 code units
long, `scanText` reports "payment" at offset 499993, where the longer indexed term
"payment service" occurs as a whole word; the scan stops at `DEFAULT_MAX_TEXT`. -/
theorem longest_match_first_counterexample :
    ∃ r ∈ recordsOf (scanText (rebuildIndex initial) (longText 499993) noOptions),
      ∃ k ∈ (rebuildIndex initial).TERM_TO_CATEGORY.keys,
        r.matched.length < k.length ∧ matchesWholeWordAt k (longText 499993) r.index :=
  longest_match_cut 499993 rfl

/-! ## The category filter (C2) -/

theorem skippedByFilter_some (maxLen : Option Nat) (L cats : List JSString) (hL : L ≠ []) :
    skippedByFilter ⟨maxLen, some L⟩ cats = false ↔ ∃ c ∈ cats, c ∈ L := by
  unfold skippedByFilter
  have hlen : L.length ≠ 0 := fun h => hL (List.length_eq_zero.1 h)
  simp [hlen]

theorem healthOnly_of_mem :
    ∀ p ∈ (rebuildIndex initial).TERM_TO_CATEGORY, js "Health" ∈ p.2 → p.2 = [js "Health"] := by
  rw [rebuildIndex_initial]
  decide!

theorem singleton_of_nodup {α : Type} (l : List α) (a : α) (hnd : l.Nodup)
    (hall : ∀ x ∈ l, x = a) (ha : a ∈ l) : l = [a] := by
  cases l with
  | nil => simp at ha
  | cons x rest =>
    have hx : x = a := hall x (List.mem_cons_self _ _)
    subst hx
    cases rest with
    | nil => rfl
    | cons y rest =>
      have hy : y = x := hall y (by simp)
      subst hy
      simp at hnd

/-- C2.  For every text and every non-empty allow-list `L` given as `options.categories`: a
match the matcher finds is recorded in the report exactly when one of the categories of its
term is in `L`, and a recorded match is listed under every category of its term.  With the
built-in vocabulary and `L = ["Health"]` a report has no category but Health, it has exactly
the category Health when the matcher finds "heart rate", and scanning
"My salary and heart rate." gives the Health entry "heart rate" alone. -/
theorem category_filter_exact (g : Globals) (text : JSString) (maxLen : Option Nat)
    (L : List JSString) (hL : L ≠ []) :
    (∀ m ∈ matchesOf g (sampleOf text ⟨maxLen, some L⟩),
      ((∃ r ∈ recordsOf (scanText g text ⟨maxLen, some L⟩),
          r.index = m.1 ∧ r.matched = m.2) ↔
        ∃ c ∈ categoriesOf g m, c ∈ L) ∧
      ((∃ c ∈ categoriesOf g m, c ∈ L) →
        ∀ c ∈ categoriesOf g m, ∃ es e, (c, es) ∈ scanText g text ⟨maxLen, some L⟩ ∧
          e ∈ es ∧ e.term = toLowerCase m.2 ∧
          ∃ r ∈ e.records, r.index = m.1 ∧ r.matched = m.2)) ∧
    (∀ c es, (c, es) ∈ scanText (rebuildIndex initial) text ⟨maxLen, some [js "Health"]⟩ →
      c = js "Health") ∧
    (∀ m ∈ matchesOf (rebuildIndex initial) (sampleOf text ⟨maxLen, some [js "Health"]⟩),
      toLowerCase m.2 = js "heart rate" →
        JSObject.keys (scanText (rebuildIndex initial) text ⟨maxLen, some [js "Health"]⟩) =
          [js "Health"]) ∧
    scanText (rebuildIndex initial) (js "My salary and heart rate.")
        ⟨none, some [js "Health"]⟩ =
      [(js "Health", [⟨js "heart rate",
        [⟨js "heart rate", js "My salary and heart rate.", 14, .exact⟩]⟩])] := by
  have honly : ∀ c es,
      (c, es) ∈ scanText (rebuildIndex initial) text ⟨maxLen, some [js "Health"]⟩ →
        c = js "Health" := by
    intro c es hc
    have hne : es ≠ [] := ((scanText_shape _ _ _).2 c es hc).1
    obtain ⟨e, he⟩ := List.exists_mem_of_ne_nil es hne
    have hne' : e.records ≠ [] := ((scanText_shape _ _ _).2 c es hc).2.2 e he
    obtain ⟨r, hr⟩ := List.exists_mem_of_ne_nil _ hne'
    obtain ⟨m, _, hs, _, hcm, _⟩ := scanText_sound _ _ _ c es e r hc he hr
    obtain ⟨c', hc', hL'⟩ := (skippedByFilter_some maxLen [js "Health"] _ (by simp)).1 hs
    rw [List.mem_singleton] at hL'
    subst hL'
    unfold categoriesOf at hcm hc'
    cases hget : (rebuildIndex initial).TERM_TO_CATEGORY.get (toLowerCase m.2) with
    | none => simp [hget] at hcm
    | some cats =>
      rw [hget] at hcm hc'
      simp only [Option.getD_some] at hcm hc'
      have := healthOnly_of_mem _ (JSObject.mem_of_get _ _ _ hget) hc'
      simp only at this
      rw [this] at hcm
      exact List.mem_singleton.1 hcm
  refine ⟨?_, honly, ?_, by rw [rebuildIndex_initial]; decide!⟩
  · intro m hm
    have hall : (∃ c ∈ categoriesOf g m, c ∈ L) →
        ∀ c ∈ categoriesOf g m, ∃ es e, (c, es) ∈ scanText g text ⟨maxLen, some L⟩ ∧
          e ∈ es ∧ e.term = toLowerCase m.2 ∧
          ∃ r ∈ e.records, r.index = m.1 ∧ r.matched = m.2 := by
      intro hex c hc
      obtain ⟨es, e, hes, he, hterm, hr⟩ := scanText_complete g text ⟨maxLen, some L⟩ m c hm
        ((skippedByFilter_some maxLen L _ hL).2 hex) hc
      exact ⟨es, e, hes, he, hterm, _, hr, rfl, rfl⟩
    refine ⟨⟨?_, ?_⟩, hall⟩
    · rintro ⟨r, hr, hidx, hmat⟩
      obtain ⟨m', _, hs, rfl⟩ := recordsOf_scanText _ _ _ _ hr
      have hmm : m' = m := Prod.ext hidx hmat
      subst hmm
      exact (skippedByFilter_some maxLen L _ hL).1 hs
    · intro hex
      obtain ⟨c, hc, hcL⟩ := hex
      obtain ⟨es, e, hes, he, _, r, hr, hidx, hmat⟩ := hall ⟨c, hc, hcL⟩ c hc
      exact ⟨r, (mem_recordsOf _ _).2 ⟨c, es, e, hes, he, hr⟩, hidx, hmat⟩
  · intro m hm hlow
    have hcat : categoriesOf (rebuildIndex initial) m = [js "Health"] := by
      unfold categoriesOf
      rw [hlow, rebuildIndex_initial]
      decide!
    obtain ⟨es, e, hes, _, _, _⟩ := scanText_complete (rebuildIndex initial) text
      ⟨maxLen, some [js "Health"]⟩ m (js "Health") hm
      ((skippedByFilter_some maxLen [js "Health"] _ (by simp)).2
        ⟨js "Health", by rw [hcat]; simp, by simp⟩)
      (by rw [hcat]; simp)
    have hkey : js "Health" ∈
        JSObject.keys (scanText (rebuildIndex initial) text ⟨maxLen, some [js "Health"]⟩) :=
      List.mem_map.2 ⟨_, hes, rfl⟩
    refine singleton_of_nodup _ _ (scanText_shape _ _ _).1 ?_ hkey
    intro c hc
    obtain ⟨p, hp, rfl⟩ := List.mem_map.1 hc
    exact honly p.1 p.2 hp

/-- C2 at a concrete input: the allow-list `["Health"]` is not empty, and in
"My salary and heart rate." the match "heart rate" at offset 14 is recorded, its term
having the category Health. -/
theorem category_filter_exact_witness :
    [js "Health"] ≠ [] ∧
      ((∃ r ∈ recordsOf (scanText (rebuildIndex initial) (js "My salary and heart rate.")
            ⟨none, some [js "Health"]⟩),
          r.index = 14 ∧ r.matched = js "heart rate") ↔
        ∃ c ∈ categoriesOf (rebuildIndex initial) (14, js "heart rate"), c ∈ [js "Health"]) :=
  ⟨by decide,
    ((category_filter_exact (rebuildIndex initial) (js "My salary and heart rate.") none
      [js "Health"] (by decide)).1 (14, js "heart rate")
        (by rw [rebuildIndex_initial]; decide!)).1⟩

/-! ## The length cap (C3) -/

theorem sampleOf_long (text : JSString) (options : Options) (n : Nat) (hn : 0 < n)
    (hlen : n < text.length)
    (hopt : options.maxTextLength = some n ∨
      (options.maxTextLength = none ∧ n = DEFAULT_MAX_TEXT)) :
    (sampleOf text options).length = n := by
  have heff : effectiveMaxTextLength options = n := by
    unfold effectiveMaxTextLength
    rcases hopt with h | ⟨h, h'⟩
    · rw [h]
      simp only
      rw [if_neg (by omega)]
    · rw [h, h']
  unfold sampleOf
  simp only [heff]
  rw [if_pos hlen]
  unfold slice
  simp only [List.drop_zero, Nat.sub_zero, List.length_take]
  omega

/-- C3.  After `rebuildIndex`, for every text longer than `n`, where `n` is the positive
`maxTextLength` given in the options or 500000 when none is given, every match record of the
report ends at or before offset `n` and so starts before it. -/
theorem truncation_bound (g : Globals) (text : JSString) (options : Options) (n : Nat)
    (hn : 0 < n) (hlen : n < text.length)
    (hopt : options.maxTextLength = some n ∨ (options.maxTextLength = none ∧ n = 500000)) :
    ∀ r ∈ recordsOf (scanText (rebuildIndex g) text options),
      r.index + r.matched.length ≤ n ∧ r.index < n := by
  intro r hr
  obtain ⟨m, hm, _, rfl⟩ := recordsOf_scanText _ _ _ _ hr
  obtain ⟨cats, _, _, _, hne, hle⟩ := rebuildIndex_match_entry g _ m hm
  rw [sampleOf_long text options n hn hlen hopt] at hle
  have hpos : 0 < m.2.length := List.length_pos.2 hne
  simp only [recordOf]
  omega

/-- C3 at a concrete input: "payment service" scanned with `maxTextLength = 7` has the
record "payment" at offset 0, which ends at offset 7. -/
theorem truncation_bound_witness :
    (0 < 7 ∧ 7 < (js "payment service").length ∧
      (⟨js "payment", js "payment", 0, .exact⟩ : MatchRecord) ∈
        recordsOf (scanText (rebuildIndex initial) (js "payment service") ⟨some 7, none⟩)) ∧
    (⟨js "payment", js "payment", 0, .exact⟩ : MatchRecord).index +
        (⟨js "payment", js "payment", 0, .exact⟩ : MatchRecord).matched.length ≤ 7 ∧
      (⟨js "payment", js "payment", 0, .exact⟩ : MatchRecord).index < 7 :=
  have hmem : (⟨js "payment", js "payment", 0, .exact⟩ : MatchRecord) ∈
      recordsOf (scanText (rebuildIndex initial) (js "payment service") ⟨some 7, none⟩) := by
    rw [rebuildIndex_initial]
    decide!
  ⟨⟨by decide, by decide, hmem⟩,
    truncation_bound initial (js "payment service") ⟨some 7, none⟩ 7 (by decide) (by decide)
      (Or.inl rfl) _ hmem⟩

/-! ## Every match has an index entry (C4) -/

theorem skippedByFilter_noFilter (options : Options) (cats : List JSString)
    (h : options.categories = none ∨ options.categories = some []) :
    skippedByFilter options cats = false := by
  unfold skippedByFilter
  rcases h with h | h <;> simp [h]

/-- C4.  After `rebuildIndex`, for every text, the lower-cased text of every match the
matcher finds is a key of `TERM_TO_CATEGORY` with a non-empty category list, so the lookup in
`scanText` never falls back to the empty list; and when no category filter is given, every
match the matcher finds in the scanned text has its record in the report.  In
"Uses GPS for location tracking, location." the matcher finds "GPS" and twice "location". -/
theorem matched_terms_indexed (g : Globals) (text : JSString) :
    (∀ m ∈ matchesOf (rebuildIndex g) text,
      ∃ cats, (rebuildIndex g).TERM_TO_CATEGORY.get (toLowerCase m.2) = some cats ∧
        cats ≠ [] ∧ categoriesOf (rebuildIndex g) m = cats) ∧
    (∀ options : Options, options.categories = none ∨ options.categories = some [] →
      ∀ m ∈ matchesOf (rebuildIndex g) (sampleOf text options),
        ∃ r ∈ recordsOf (scanText (rebuildIndex g) text options),
          r.index = m.1 ∧ r.matched = m.2) ∧
    matchesOf (rebuildIndex initial) (js "Uses GPS for location tracking, location.") =
      [(5, js "GPS"), (13, js "location"), (32, js "location")] := by
  refine ⟨?_, ?_, by rw [rebuildIndex_initial]; decide!⟩
  · intro m hm
    obtain ⟨cats, hget, hne, _⟩ := rebuildIndex_match_entry g text m hm
    refine ⟨cats, hget, hne, ?_⟩
    unfold categoriesOf
    rw [hget]
    rfl
  · intro options hopt m hm
    obtain ⟨hne, _⟩ := categoriesOf_rebuildIndex g _ m hm
    obtain ⟨c, hc⟩ := List.exists_mem_of_ne_nil _ hne
    obtain ⟨es, e, hes, he, _, hr⟩ := scanText_complete (rebuildIndex g) text options m c hm
      (skippedByFilter_noFilter options _ hopt) hc
    exact ⟨_, (mem_recordsOf _ _).2 ⟨c, es, e, hes, he, hr⟩, rfl, rfl⟩

/-! ## The shape of the report (C7) and the scores (C8) -/

/-- C7.  For every text and options the report has only categories with a match: no
category twice, every category with a non-empty list of entries whose terms differ pairwise,
every entry with a non-empty list of records, the lower-cased matched text of each record
equal to the term of its entry, and the records of an entry in strictly increasing offset.
Before `rebuildIndex` the report is empty.  With the built-in vocabulary,
"Uses GPS for location tracking, location." gives exactly the category Location, with the
entry "gps" (one match, "GPS" at 5) and then the entry "location" (matches at 13 and 32). -/
theorem report_shape (g : Globals) (text : JSString) (options : Options) :
    (JSObject.keys (scanText (rebuildIndex g) text options)).Nodup ∧
    (∀ c es, (c, es) ∈ scanText (rebuildIndex g) text options →
      es ≠ [] ∧ (es.map TermEntry.term).Nodup ∧
      ∀ e ∈ es, e.records ≠ [] ∧ (∀ r ∈ e.records, toLowerCase r.matched = e.term) ∧
        e.records.Pairwise (fun a b => a.index < b.index)) ∧
    scanText initial text options = [] ∧
    scanText (rebuildIndex initial) (js "Uses GPS for location tracking, location.")
        noOptions =
      [(js "Location",
        [⟨js "gps", [⟨js "GPS", js "Uses GPS for location tracking, location.", 5, .exact⟩]⟩,
         ⟨js "location",
          [⟨js "location", js "Uses GPS for location tracking, location.", 13, .exact⟩,
           ⟨js "location", js "Uses GPS for location tracking, location.", 32, .exact⟩]⟩])] := by
  refine ⟨(scanText_shape _ _ _).1, ?_, rfl, by rw [rebuildIndex_initial]; decide!⟩
  intro c es hc
  obtain ⟨hne, hnd, hrec⟩ := (scanText_shape _ _ _).2 c es hc
  refine ⟨hne, hnd, ?_⟩
  intro e he
  refine ⟨hrec e he, ?_, ?_⟩
  · intro r hr
    obtain ⟨m, _, _, hterm, _, rfl⟩ := scanText_sound _ _ _ c es e r hc he hr
    exact hterm
  · have hsub := scanText_sublist (rebuildIndex g) text options
      (fun m hm => (categoriesOf_rebuildIndex g _ m hm).2) c es e hc he
    refine List.Pairwise.sublist hsub ?_
    rw [List.pairwise_map]
    refine (matchesOf_pairwise (rebuildIndex g) (sampleOf text options)).imp_of_mem ?_
    intro a b ha _ hab
    obtain ⟨_, _, _, _, hane, _⟩ := rebuildIndex_match_entry g _ a ha
    have hpos : 0 < a.2.length := List.length_pos.2 hane
    simp only [recordOf]
    omega

/-- C8.  For every state, text and options, every match record of the report has the score
1.0, its matched text being equal to the term of its entry up to case, so `scanText` never
gives 0.8; `scoreMatch` itself gives 1.0 when its arguments are equal ignoring case and 0.8
otherwise. -/
theorem score_always_exact (g : Globals) (text : JSString) (options : Options) :
    (∀ c es e r, (c, es) ∈ scanText g text options → e ∈ es → r ∈ e.records →
      toLowerCase r.matched = toLowerCase e.term ∧ r.score = Score.exact ∧
        r.score.value = 1.0) ∧
    (∀ r ∈ recordsOf (scanText g text options), r.score ≠ Score.inexact) ∧
    (∀ a b : JSString, toLowerCase a = toLowerCase b → (scoreMatch a b).value = 1.0) ∧
    (∀ a b : JSString, toLowerCase a ≠ toLowerCase b → (scoreMatch a b).value = 0.8) := by
  have hrec : ∀ sample m, (recordOf sample m).score = Score.exact := by
    intro sample m
    simp [recordOf, scoreMatch, toLowerCase_idem]
  refine ⟨?_, ?_, ?_, ?_⟩
  · intro c es e r hc he hr
    obtain ⟨m, _, _, hterm, _, rfl⟩ := scanText_sound _ _ _ c es e r hc he hr
    refine ⟨?_, hrec _ _, ?_⟩
    · rw [← hterm, toLowerCase_idem]
      rfl
    · rw [hrec]
      norm_num [Score.value]
  · intro r hr
    obtain ⟨m, _, _, rfl⟩ := recordsOf_scanText _ _ _ _ hr
    rw [hrec]
    decide
  · intro a b h
    simp only [scoreMatch, h, if_true, Score.value]
    norm_num
  · intro a b h
    simp only [scoreMatch, h, if_false, Score.value]
    norm_num

/-! ## Snippets (C5, C6) -/

theorem collapseFrom_length (inRun : Bool) (s : JSString) :
    (collapseFrom inRun s).length ≤ s.length := by
  induction s generalizing inRun with
  | nil => simp [collapseFrom]
  | cons c rest ih =>
    simp only [collapseFrom]
    split
    · split
      · have := ih true
        simp only [List.length_cons]
        omega
      · have := ih true
        simp only [List.length_cons]
        omega
    · have := ih false
      simp only [List.length_cons]
      omega

theorem trim_length (s : JSString) : (trim s).length ≤ s.length := by
  unfold trim
  rw [List.length_reverse]
  refine le_trans (List.Sublist.length_le (List.dropWhile_sublist _)) ?_
  rw [List.length_reverse]
  exact List.Sublist.length_le (List.dropWhile_sublist _)

theorem slice_length_le (s : JSString) (a b : Nat) : (slice s a b).length ≤ b - a := by
  unfold slice
  rw [List.length_take]
  exact Nat.min_le_left _ _

/-- The snippet of a record in terms of the text scanned. -/
theorem makeSnippet_eq (text : JSString) (index matchLen radius : Nat) :
    makeSnippet text index matchLen radius =
      (if radius < index then ellipsis else []) ++
        collapseWhiteSpace (trim (slice text (index - radius)
          (min text.length (index + matchLen + radius)))) ++
        (if index + matchLen + radius < text.length then ellipsis else []) := by
  unfold makeSnippet
  simp only [Nat.zero_max]
  have h1 : (index - radius > 0) = (radius < index) := by
    apply propext
    constructor <;> intro h <;> omega
  have h2 : (min text.length (index + matchLen + radius) < text.length) =
      (index + matchLen + radius < text.length) := by
    apply propext
    constructor <;> intro h <;> omega
  simp only [h1, h2]

theorem dropWhile_concat (p : Nat → Bool) (l : List Nat) (c : Nat) :
    (l ++ [c]).dropWhile p =
      if l.dropWhile p = [] then (if p c then [] else [c]) else l.dropWhile p ++ [c] := by
  induction l with
  | nil => by_cases hc : p c = true <;> simp [List.dropWhile, hc]
  | cons a rest ih =>
    by_cases ha : p a = true
    · simp only [List.cons_append, List.dropWhile_cons, ha, if_true, ih]
    · simp [List.dropWhile_cons, ha]

theorem trim_eq (s : JSString) :
    trim s = dropTrailingWhiteSpace (s.dropWhile isWhiteSpace) := by
  unfold trim
  generalize s.dropWhile isWhiteSpace = l
  induction l with
  | nil => simp [dropTrailingWhiteSpace]
  | cons c rest ih =>
    rw [List.reverse_cons, dropWhile_concat]
    simp only [dropTrailingWhiteSpace, ← ih]
    by_cases h : rest.reverse.dropWhile isWhiteSpace = []
    · by_cases hc : isWhiteSpace c = true <;> simp [h, hc]
    · simp [h]

theorem wordsFrom_eq_nil (cur s : JSString) :
    wordsFrom cur s = [] ↔ cur = [] ∧ dropTrailingWhiteSpace s = [] := by
  induction s generalizing cur with
  | nil => by_cases h : cur = [] <;> simp [wordsFrom, dropTrailingWhiteSpace, h]
  | cons c rest ih =>
    by_cases hc : isWhiteSpace c = true
    · by_cases h : cur = []
      · simp [wordsFrom, dropTrailingWhiteSpace, hc, h, ih]
      · simp [wordsFrom, dropTrailingWhiteSpace, hc, h]
    · simp [wordsFrom, dropTrailingWhiteSpace, hc, ih]

theorem joinWords_cons (w : JSString) (ws : List JSString) :
    joinWords (w :: ws) = w ++ (if ws = [] then [] else 32 :: joinWords ws) := by
  cases ws with
  | nil => simp [joinWords]
  | cons v rest => simp [joinWords]

theorem joinWords_wordsFrom (s : JSString) :
    (∀ cur, cur ≠ [] →
      joinWords (wordsFrom cur s) = cur ++ collapseFrom false (dropTrailingWhiteSpace s)) ∧
    joinWords (wordsFrom [] s) = collapseFrom true (dropTrailingWhiteSpace s) := by
  induction s with
  | nil =>
    refine ⟨?_, by simp [wordsFrom, joinWords, dropTrailingWhiteSpace, collapseFrom]⟩
    intro cur hcur
    simp [wordsFrom, joinWords, dropTrailingWhiteSpace, collapseFrom, hcur]
  | cons c rest ih =>
    obtain ⟨ihA, ihB⟩ := ih
    by_cases hc : isWhiteSpace c = true
    · constructor
      · intro cur hcur
        simp only [wordsFrom, hc, if_true, hcur, if_false, joinWords_cons, wordsFrom_eq_nil,
          true_and, dropTrailingWhiteSpace]
        by_cases hrest : dropTrailingWhiteSpace rest = []
        · simp [hrest, collapseFrom]
        · simp [hrest, collapseFrom, hc, ihB]
      · simp only [wordsFrom, hc, if_true, dropTrailingWhiteSpace, true_and]
        by_cases hrest : dropTrailingWhiteSpace rest = []
        · rw [ihB]
          simp [hrest, collapseFrom]
        · rw [ihB]
          simp [hrest, collapseFrom, hc]
    · constructor
      · intro cur hcur
        simp only [wordsFrom, hc, Bool.false_eq_true, if_false, dropTrailingWhiteSpace,
          false_and, collapseFrom]
        rw [ihA (cur ++ [c]) (by simp)]
        simp
      · simp only [wordsFrom, hc, Bool.false_eq_true, if_false, dropTrailingWhiteSpace,
          false_and, collapseFrom, List.nil_append]
        rw [ihA [c] (by simp)]
        simp

theorem wordsFrom_dropWhile (s : JSString) :
    wordsFrom [] (s.dropWhile isWhiteSpace) = wordsFrom [] s := by
  induction s with
  | nil => rfl
  | cons c rest ih =>
    by_cases hc : isWhiteSpace c = true
    · simp [List.dropWhile_cons, hc, wordsFrom, ih]
    · simp [List.dropWhile_cons, hc]

/-- The two calls `trim()` and `replace(/\s+/g, " ")` together give the words of the string
joined by single spaces. -/
theorem collapse_trim_eq (s : JSString) :
    collapseWhiteSpace (trim s) = joinWords (wordsOf s) := by
  unfold collapseWhiteSpace wordsOf
  rw [trim_eq, ← wordsFrom_dropWhile]
  generalize hl : s.dropWhile isWhiteSpace = l
  cases l with
  | nil => simp [dropTrailingWhiteSpace, collapseFrom, wordsFrom, joinWords]
  | cons c rest =>
    have hc : ¬ isWhiteSpace c = true := by
      have := List.head?_dropWhile_not isWhiteSpace s
      rw [hl] at this
      simpa using this
    simp only [wordsFrom, hc, Bool.false_eq_true, if_false, dropTrailingWhiteSpace, false_and,
      collapseFrom, List.nil_append]
    rw [(joinWords_wordsFrom rest).1 [c] (by simp)]
    simp

theorem slice_min (text : JSString) (a b : Nat) :
    slice text a (min text.length b) = slice text a b := by
  unfold slice
  rcases Nat.le_total b text.length with h | h
  · rw [Nat.min_eq_right h]
  · rw [Nat.min_eq_left h, List.take_of_length_le (by rw [List.length_drop]),
      List.take_of_length_le (by rw [List.length_drop]; omega)]

/-- C5.  For every text, offset, match length and radius `r`, the snippet is the ellipsis
exactly when `index > r`, then the words of the context window (the text from `index - r` up
to `index + matchLen + r`) joined by single spaces, then the ellipsis exactly when
`index + matchLen + r < text.length`; the part between the markers has at most
`matchLen + 2 * r` code units.  For the match "GPS" at offset 7 of a text of 18 code units,
radius 4 cuts the window on both sides and radius 40 on neither. -/
theorem snippet_markers (text : JSString) (index matchLen r : Nat) :
    makeSnippet text index matchLen r =
      (if r < index then ellipsis else []) ++
        joinWords (wordsOf (slice text (index - r) (index + matchLen + r))) ++
        (if index + matchLen + r < text.length then ellipsis else []) ∧
    (joinWords (wordsOf (slice text (index - r) (index + matchLen + r)))).length ≤
      matchLen + 2 * r ∧
    makeSnippet (js "ab  cd GPS \t ef gh") 7 3 4 = js "…cd GPS e…" ∧
    makeSnippet (js "ab  cd GPS \t ef gh") 7 3 40 = js "ab cd GPS ef gh" := by
  rw [makeSnippet_eq, slice_min, collapse_trim_eq]
  refine ⟨rfl, ?_, by decide, by decide⟩
  rw [← collapse_trim_eq]
  have h1 := collapseFrom_length false (trim (slice text (index - r) (index + matchLen + r)))
  have h2 := trim_length (slice text (index - r) (index + matchLen + r))
  have h3 := slice_length_le text (index - r) (index + matchLen + r)
  unfold collapseWhiteSpace
  omega

theorem sampleOf_short (text : JSString) (options : Options)
    (h : text.length ≤ effectiveMaxTextLength options) : sampleOf text options = text := by
  unfold sampleOf
  simp only
  rw [if_neg (by omega)]

/-- C6, as the code has it.  Scanning a text of 1000 code units with default options, a
match at offset 10 gets a snippet with no leading ellipsis: it is the words of the first
`50 + length of the match` code units joined by single spaces, followed by the ellipsis
exactly when that window ends before the end of the text. -/
theorem snippet_at_offset_ten (g : Globals) (text : JSString) (hlen : text.length = 1000) :
    ∀ r ∈ recordsOf (scanText (rebuildIndex g) text noOptions), r.index = 10 →
      r.snippet = joinWords (wordsOf (slice text 0 (50 + r.matched.length))) ++
        (if 50 + r.matched.length < 1000 then ellipsis else []) := by
  intro r hr hidx
  obtain ⟨m, _, _, rfl⟩ := recordsOf_scanText _ _ _ _ hr
  have hs : sampleOf text noOptions = text :=
    sampleOf_short text noOptions (by rw [hlen]; decide)
  simp only [recordOf] at hidx ⊢
  rw [hs, hidx, (snippet_markers text 10 m.2.length 40).1, hlen]
  have h1 : 10 + m.2.length + 40 = 50 + m.2.length := by omega
  rw [h1]
  simp

/-- C6, the claim as written fails: in `text1000` the one match is "gps" at offset 10, and
its snippet starts with the text's first code unit, not with the ellipsis. -/
theorem snippet_at_offset_ten_counterexample :
    text1000.length = 1000 ∧
      recordsOf (scanText (rebuildIndex initial) text1000 noOptions) =
        [⟨js "gps", js "aaaaaaaaa gps " ++ List.replicate 39 46 ++ ellipsis, 10, .exact⟩] ∧
      (js "aaaaaaaaa gps " ++ List.replicate 39 46 ++ ellipsis).head? ≠ ellipsis.head? := by
  rw [rebuildIndex_initial]
  decide!

/-- C6 at a concrete input: `text1000` has 1000 code units and the record of "gps" at
offset 10, whose snippet is the words of the first 53 code units and then the ellipsis. -/
theorem snippet_at_offset_ten_witness :
    (text1000.length = 1000 ∧
      (⟨js "gps", js "aaaaaaaaa gps " ++ List.replicate 39 46 ++ ellipsis, 10, .exact⟩ :
          MatchRecord) ∈ recordsOf (scanText (rebuildIndex initial) text1000 noOptions) ∧
      (⟨js "gps", js "aaaaaaaaa gps " ++ List.replicate 39 46 ++ ellipsis, 10, .exact⟩ :
          MatchRecord).index = 10) ∧
    js "aaaaaaaaa gps " ++ List.replicate 39 46 ++ ellipsis =
      joinWords (wordsOf (slice text1000 0 (50 + (js "gps").length))) ++
        (if 50 + (js "gps").length < 1000 then ellipsis else []) :=
  have hmem : (⟨js "gps", js "aaaaaaaaa gps " ++ List.replicate 39 46 ++ ellipsis, 10,
      .exact⟩ : MatchRecord) ∈
      recordsOf (scanText (rebuildIndex initial) text1000 noOptions) := by
    rw [rebuildIndex_initial]
    decide!
  ⟨⟨by decide!, hmem, rfl⟩,
    snippet_at_offset_ten initial text1000 (by decide!) _ hmem rfl⟩

/-! ## Highlighting keeps the text (C10) -/

theorem matchAt_slice (re : TermsRegex) (text : JSString) (i : Nat) (hi : i ≤ text.length)
    (m : JSString) (h : matchAt re (charBefore text i) (text.drop i) = some m) :
    m = slice text i (i + m.length) ∧ i + m.length ≤ text.length := by
  unfold matchAt at h
  split at h
  · obtain ⟨l₁, k, l₂, _, hk, _⟩ := List.findSome?_eq_some_iff.1 h
    rw [matchAlternative_eq text i k hi] at hk
    split at hk
    · rename_i hc
      have hm := (Option.some.inj hk).symm
      have hlen : m.length = (literalOf false k).length := by
        rw [hm]
        exact length_slice _ _ _ hc.1
      rw [hlen]
      exact ⟨hm, hc.1⟩
    · cases hk
  · cases h

theorem execAll_slice (re : TermsRegex) (text : JSString) :
    ∀ m ∈ execAll re text,
      m.2 = slice text m.1 (m.1 + m.2.length) ∧ m.1 + m.2.length ≤ text.length := by
  intro m hm
  obtain ⟨hlt, hmatch⟩ := execAll_spec re text m hm
  exact matchAt_slice re text m.1 (Nat.le_of_lt hlt) m.2 hmatch

theorem fragmentText_append (a b : List FragmentNode) :
    fragmentText (a ++ b) = fragmentText a ++ fragmentText b := by
  induction a with
  | nil => rfl
  | cons x rest ih => cases x <;> simp [fragmentText, ih]

theorem fragmentTerms_append (a b : List FragmentNode) :
    fragmentTerms (a ++ b) = fragmentTerms a ++ fragmentTerms b := by
  induction a with
  | nil => rfl
  | cons x rest ih => cases x <;> simp [fragmentTerms, ih]

theorem take_append_slice (text : JSString) (a b : Nat) (h : a ≤ b) :
    text.take a ++ slice text a b = text.take b := by
  unfold slice
  have hb : b = a + (b - a) := by omega
  conv_rhs => rw [hb, List.take_add]

theorem highlightStep_fold_text (g : Globals) (options : Options) (text : JSString)
    (ms : List (Nat × JSString)) (st : LeafState)
    (hpw : ms.Pairwise (fun a b => a.1 + a.2.length ≤ b.1))
    (hms : ∀ m ∈ ms, m.2 = slice text m.1 (m.1 + m.2.length) ∧ m.1 + m.2.length ≤ text.length)
    (hst : fragmentText st.frag = text.take st.lastIdx)
    (hle : ∀ m ∈ ms, st.lastIdx ≤ m.1) :
    fragmentText (ms.foldl (highlightStep g options text) st).frag =
      text.take (ms.foldl (highlightStep g options text) st).lastIdx := by
  induction ms generalizing st with
  | nil => exact hst
  | cons m rest ih =>
    rw [List.foldl_cons]
    rw [List.pairwise_cons] at hpw
    have hm := hms m (List.mem_cons_self _ _)
    have hlem := hle m (List.mem_cons_self _ _)
    apply ih _ hpw.2 (fun x hx => hms x (List.mem_cons_of_mem _ hx))
    · unfold highlightStep
      simp only
      split
      · exact hst
      · simp only
        have hfrag : fragmentText
            ((if slice text st.lastIdx m.1 ≠ [] then
              st.frag ++ [FragmentNode.text (slice text st.lastIdx m.1)] else st.frag) ++
              [FragmentNode.mark m.2 (toLowerCase m.2) st.counter]) =
            fragmentText st.frag ++ slice text st.lastIdx m.1 ++ m.2 := by
          by_cases hb : slice text st.lastIdx m.1 = []
          · simp [hb, fragmentText_append, fragmentText]
          · simp [hb, fragmentText_append, fragmentText]
        rw [hfrag, hst, take_append_slice text _ _ hlem]
        conv_lhs => rw [hm.1]
        exact take_append_slice text _ _ (Nat.le_add_right _ _)
    · intro x hx
      have hx' := hpw.1 x hx
      unfold highlightStep
      simp only
      split
      · omega
      · exact hx'

/-- The fragment built for a text leaf has the text of the leaf. -/
theorem fragmentText_buildFragment (g : Globals) (re : TermsRegex) (options : Options)
    (text : JSString) (counter : Nat) :
    fragmentText (buildFragment g re options text counter).1 = text := by
  have h := highlightStep_fold_text g options text (execAll re text) ⟨[], 0, counter⟩
    (execAll_pairwise re text) (execAll_slice re text) (by simp [fragmentText])
    (fun m _ => Nat.zero_le _)
  unfold buildFragment
  simp only
  have hdrop : ∀ a, text.take a ++ slice text a text.length = text := by
    intro a
    unfold slice
    have h2 : List.take (text.length - a) (List.drop a text) = List.drop a text :=
      List.take_of_length_le (by rw [List.length_drop])
    rw [h2, List.take_append_drop]
  split
  · rw [fragmentText_append, h]
    simp only [fragmentText, List.append_nil]
    exact hdrop _
  · rename_i hnil
    have hnil' : slice text
        (List.foldl (highlightStep g options text) ⟨[], 0, counter⟩ (execAll re text)).lastIdx
        text.length = [] := by
      simpa using hnil
    rw [h]
    have := hdrop (List.foldl (highlightStep g options text) ⟨[], 0, counter⟩
      (execAll re text)).lastIdx
    rw [hnil', List.append_nil] at this
    exact this

theorem textContent_spliceFragment (frag : List FragmentNode) (next : NodeList) :
    textContent (spliceFragment frag next) = fragmentText frag ++ textContent next := by
  induction frag with
  | nil => rfl
  | cons x rest ih =>
    cases x with
    | text v => simp [spliceFragment, textContent, fragmentText, ih]
    | mark t term id =>
      by_cases ht : t = []
      · simp [spliceFragment, textContent, fragmentText, ih, ht]
      · simp [spliceFragment, textContent, fragmentText, ih, ht]

theorem textContent_highlightWalk (g : Globals) (re : TermsRegex) (options : Options)
    (tag : JSString) (budget counter : Nat) (l : NodeList) :
    textContent (highlightWalk g re options tag budget counter l).1 = textContent l := by
  induction l generalizing tag budget counter with
  | nil => rfl
  | text v next ih =>
    simp only [highlightWalk]
    split
    · simp only [textContent_spliceFragment, fragmentText_buildFragment, ih, textContent]
    · simp only [textContent, ih]
  | element t c d ch next ihc ihn =>
    simp only [highlightWalk, textContent, ihc, ihn]

theorem textContent_normalize (l : NodeList) : textContent (normalize l) = textContent l := by
  induction l with
  | nil => rfl
  | text v next ih =>
    simp only [normalize]
    split
    · rename_i hv
      rw [ih, hv]
      rfl
    · split
      · rename_i w rest heq
        rw [heq] at ih
        simp only [textContent] at ih ⊢
        rw [List.append_assoc, ih]
      · simp only [textContent, ih]
  | element t c d ch next ihc ihn => simp only [normalize, textContent, ihc, ihn]

theorem textContent_replaceMarks (l : NodeList) :
    textContent (replaceMarks l) = textContent l := by
  induction l with
  | nil => rfl
  | text v next ih => simp only [replaceMarks, textContent, ih]
  | element t c d ch next ihc ihn =>
    simp only [replaceMarks]
    split <;> simp only [textContent, ihc, ihn]

theorem textContent_removeHighlightsBelow (l : NodeList) :
    textContent (removeHighlightsBelow l) = textContent l := by
  induction l with
  | nil => rfl
  | text v next ih => simp only [removeHighlightsBelow, textContent, ih]
  | element t c d ch next ihc ihn =>
    simp only [removeHighlightsBelow, textContent, ihn]
    split
    · rw [textContent_normalize, textContent_replaceMarks]
    · rw [ihc]

theorem textContent_removeHighlights (body : NodeList) :
    textContent (removeHighlights body) = textContent body := by
  unfold removeHighlights
  split
  · rw [textContent_normalize, textContent_replaceMarks]
  · exact textContent_removeHighlightsBelow body

theorem hasMarker_normalize (l : NodeList) : hasMarker (normalize l) = hasMarker l := by
  induction l with
  | nil => rfl
  | text v next ih =>
    simp only [normalize]
    split
    · simp only [hasMarker, ih]
    · split
      · rename_i w rest heq
        rw [heq] at ih
        simp only [hasMarker] at ih ⊢
        exact ih
      · simp only [hasMarker, ih]
  | element t c d ch next ihc ihn => simp only [normalize, hasMarker, ihc, ihn]

theorem hasMarker_replaceMarks (l : NodeList) : hasMarker (replaceMarks l) = false := by
  induction l with
  | nil => rfl
  | text v next ih => simp only [replaceMarks, hasMarker, ih]
  | element t c d ch next ihc ihn =>
    simp only [replaceMarks]
    split
    · simp only [hasMarker, ihn]
    · rename_i h
      simp only [hasMarker, ihc, ihn, Bool.or_false]
      simpa using h

theorem hasMarker_removeHighlightsBelow (l : NodeList) (h : hasMarkChild l = false) :
    hasMarker (removeHighlightsBelow l) = false := by
  induction l with
  | nil => rfl
  | text v next ih =>
    simp only [hasMarkChild] at h
    simp only [removeHighlightsBelow, hasMarker, ih h]
  | element t c d ch next ihc ihn =>
    simp only [hasMarkChild, Bool.or_eq_false_iff] at h
    simp only [removeHighlightsBelow, hasMarker, ihn h.2, h.1, Bool.or_false, Bool.false_or]
    split
    · rw [hasMarker_normalize, hasMarker_replaceMarks]
    · rename_i hch
      exact ihc (by simpa using hch)

theorem hasMarker_removeHighlights (body : NodeList) :
    hasMarker (removeHighlights body) = false := by
  unfold removeHighlights
  split
  · rw [hasMarker_normalize, hasMarker_replaceMarks]
  · rename_i h
    exact hasMarker_removeHighlightsBelow body (by simpa using h)

theorem textContent_highlightMatchesInDOM (g : Globals) (options : Options) (budget : Nat)
    (body : NodeList) :
    textContent (highlightMatchesInDOM g options budget body) = textContent body := by
  unfold highlightMatchesInDOM
  split
  · rfl
  · rw [textContent_highlightWalk, textContent_removeHighlights]

/-- C10.  For every text leaf and every options value the fragment `highlightMatchesInDOM`
builds has the text of the leaf, also when matches are skipped by the category filter, and
takes the leaf's place with that text; `removeHighlights` leaves no marker and keeps the
text of the tree; so the text of the tree is the same before highlighting, after
highlighting, and after clearing the highlights again. -/
theorem highlight_roundtrip (g : Globals) (options : Options) :
    (∀ (re : TermsRegex) (text : JSString) (counter : Nat) (next : NodeList),
      fragmentText (buildFragment g re options text counter).1 = text ∧
        textContent (spliceFragment (buildFragment g re options text counter).1 next) =
          text ++ textContent next) ∧
    (∀ body : NodeList,
      hasMarker (removeHighlights body) = false ∧
        textContent (removeHighlights body) = textContent body) ∧
    (∀ (budget : Nat) (body : NodeList),
      textContent (highlightMatchesInDOM g options budget body) = textContent body ∧
        textContent (removeHighlights (highlightMatchesInDOM g options budget body)) =
          textContent body) := by
  refine ⟨?_, ?_, ?_⟩
  · intro re text counter next
    refine ⟨fragmentText_buildFragment g re options text counter, ?_⟩
    rw [textContent_spliceFragment, fragmentText_buildFragment]
  · intro body
    exact ⟨hasMarker_removeHighlights body, textContent_removeHighlights body⟩
  · intro budget body
    refine ⟨textContent_highlightMatchesInDOM g options budget body, ?_⟩
    rw [textContent_removeHighlights, textContent_highlightMatchesInDOM]

/-! ## The resynchronising pass (C9) -/

theorem highlightStep_fold_terms (g : Globals) (options : Options) (text : JSString)
    (ms : List (Nat × JSString)) (st : LeafState) :
    fragmentTerms (ms.foldl (highlightStep g options text) st).frag =
      fragmentTerms st.frag ++
        (ms.filter (fun m => !skippedByFilter options (categoriesOf g m))).map
          (fun m => toLowerCase m.2) := by
  induction ms generalizing st with
  | nil => simp
  | cons m rest ih =>
    rw [List.foldl_cons, ih]
    unfold highlightStep
    simp only
    by_cases hs : skippedByFilter options (categoriesOf g m) = true
    · have hs' : skippedByFilter options
          ((g.TERM_TO_CATEGORY.get (toLowerCase m.2)).getD []) = true := hs
      simp [hs, hs', List.filter_cons]
    · have hs' : ¬ skippedByFilter options
          ((g.TERM_TO_CATEGORY.get (toLowerCase m.2)).getD []) = true := hs
      by_cases hb : slice text st.lastIdx m.1 = []
      · simp [hs, hs', hb, List.filter_cons, fragmentTerms_append, fragmentTerms]
      · simp [hs, hs', hb, List.filter_cons, fragmentTerms_append, fragmentTerms]

/-- The markers of the fragment of a text leaf are those of the matches that pass the
filter. -/
theorem fragmentTerms_buildFragment (g : Globals) (re : TermsRegex) (options : Options)
    (text : JSString) (counter : Nat) :
    fragmentTerms (buildFragment g re options text counter).1 =
      ((execAll re text).filter (fun m => !skippedByFilter options (categoriesOf g m))).map
        (fun m => toLowerCase m.2) := by
  unfold buildFragment
  simp only
  split
  · rw [fragmentTerms_append, highlightStep_fold_terms]
    simp [fragmentTerms]
  · rw [highlightStep_fold_terms]
    simp [fragmentTerms]

theorem markerTerms_spliceFragment (frag : List FragmentNode) (next : NodeList) :
    markerTerms (spliceFragment frag next) = fragmentTerms frag ++ markerTerms next := by
  have hmark : isHighlight (js "mark") [js "privacy-highlight"] = true := by decide
  induction frag with
  | nil => rfl
  | cons x rest ih =>
    cases x with
    | text v => simp [spliceFragment, markerTerms, fragmentTerms, ih]
    | mark t term id =>
      by_cases ht : t = []
      · simp [spliceFragment, markerTerms, fragmentTerms, ih, ht, hmark]
      · simp [spliceFragment, markerTerms, fragmentTerms, ih, ht, hmark]

/-- C9, as the code has it.  After a highlight pass with any options, a mutation and the
expiry of the debounce timer, the page is the one an unfiltered pass
`highlightMatchesInDOM()` leaves, the timer no longer running; in that pass the nodes that
take the place of a text leaf carry a marker for every match of the leaf, whatever the
allow-list of the earlier pass was. -/
theorem resync_without_filter (g : Globals) (budget : Nat) (p : Page) (options : Options) :
    run g budget p [.highlight options, .mutation, .timerExpiry] =
      ⟨highlightMatchesInDOM g noOptions budget
        (highlightMatchesInDOM g options budget p.body), false⟩ ∧
    ∀ (re : TermsRegex) (text : JSString) (counter : Nat) (next : NodeList),
      markerTerms (spliceFragment (buildFragment g re noOptions text counter).1 next) =
        (execAll re text).map (fun m => toLowerCase m.2) ++ markerTerms next := by
  refine ⟨rfl, ?_⟩
  intro re text counter next
  rw [markerTerms_spliceFragment, fragmentTerms_buildFragment]
  congr 2
  apply List.filter_eq_self.2
  intro m _
  simp [skippedByFilter, noOptions]

/-- C9, the claim as written fails: on `page0`, a pass with the allow-list `["Health"]`
marks "heart rate" alone, and the pass run when the timer expires after a mutation marks
"salary" too, a term whose only category, Financial, is not in the allow-list. -/
theorem resync_without_filter_counterexample :
    markerTerms (run (rebuildIndex initial) 1 page0
        [.highlight ⟨none, some [js "Health"]⟩]).body = [js "heart rate"] ∧
    markerTerms (run (rebuildIndex initial) 1 page0
        [.highlight ⟨none, some [js "Health"]⟩, .mutation, .timerExpiry]).body =
      [js "salary", js "heart rate"] ∧
    (rebuildIndex initial).TERM_TO_CATEGORY.get (js "salary") = some [js "Financial"] ∧
    js "Financial" ∉ [js "Health"] := by
  rw [rebuildIndex_initial]
  decide!

end PolicyRadar
